import Mathlib

/-
Verification of the force-directed network-graph engine
(`src/js/network-graph.js`) against its natural-language specification.

The JavaScript code is shallowly embedded: JS numbers are idealized as
rationals (ℚ), `Math.sqrt` is abstracted as an explicit function parameter
`sq : ℚ → ℚ` (theorems that depend on it either hold for every such
function, or are evaluated at inputs whose square roots are exact), the
mutable `this.nodes` array becomes an explicit `List NodeS` threaded
through each operation, and the SVG attribute state touched by the
highlight operations becomes an explicit `DisplayState`.
-/

namespace NetworkGraph

/-- A node of the graph model, as produced by `parseData`.  Fields that are
never read by any modelled operation (display name, entity type, render
radius) are omitted; `riskScore` is kept because it decides whether a risk
ring precedes the main circle in the node's rendered group. -/
structure NodeS where
  id : String
  x : ℚ
  y : ℚ
  vx : ℚ
  vy : ℚ
  isCenter : Bool
  layer : Nat
  riskScore : ℚ
deriving DecidableEq, Repr

/-- An edge of the graph model, as produced by `parseData`. -/
structure EdgeS where
  id : String
  source : String
  target : String
  type : String
  strength : String
deriving DecidableEq, Repr

/-- A raw relationship record from the initialization payload
(`this.data.relationships` entries). -/
structure RelRecord where
  id : String
  sourceEntityId : String
  targetEntityId : String
  type : Option String
  strength : Option String
deriving DecidableEq, Repr

/-- JavaScript `a || d` for an optional string `a`: `undefined` and the
empty string are falsy and yield the default. -/
def jsOrDefault (v : Option String) (d : String) : String :=
  match v with
  | none => d
  | some "" => d
  | some s => s

/-- The edge half of `parseData` (network-graph.js lines 70-77):
`this.edges = (this.data.relationships || []).map(rel => ({...}))`.
Every record is mapped to an edge; no referential check is performed. -/
def parseEdges (relationships : List RelRecord) : List EdgeS :=
  relationships.map fun rel =>
    { id := rel.id
      source := rel.sourceEntityId
      target := rel.targetEntityId
      type := jsOrDefault rel.type "Related"
      strength := jsOrDefault rel.strength "Medium" }

/-! ## Breadth-first search (`findShortestPath`) -/

/-- Neighbor enumeration inside the BFS loop:
`this.edges.filter(e => e.source === current || e.target === current)
           .map(e => e.source === current ? e.target : e.source)`. -/
def neighborsOf (edges : List EdgeS) (current : String) : List String :=
  (edges.filter fun e => e.source == current || e.target == current).map
    fun e => if e.source == current then e.target else e.source

/-- The inner `for (const neighbor of neighbors)` loop of the BFS:
returns the found path, or the updated visited set and queue. -/
def scanNeighbors (endId : String) (path : List String) :
    List String → Finset String → List (List String) →
    Option (List String) × Finset String × List (List String)
  | [], visited, queue => (none, visited, queue)
  | v :: vs, visited, queue =>
    if v = endId then (some (path ++ [v]), visited, queue)
    else if v ∈ visited then scanNeighbors endId path vs visited queue
    else scanNeighbors endId path vs (insert v visited) (queue ++ [path ++ [v]])

/-- The `while (queue.length > 0)` loop of `findShortestPath`.  The JS
loop has no fuel parameter; the fuel below only bounds the recursion and
is proved large enough that the zero-fuel branch is never reached. -/
def bfsLoop (edges : List EdgeS) (endId : String) :
    Nat → List (List String) → Finset String → Option (List String)
  | 0, _, _ => none
  | _ + 1, [], _ => none
  | fuel + 1, path :: rest, visited =>
    match scanNeighbors endId path (neighborsOf edges (path.getLastD "")) visited rest with
    | (some found, _, _) => some found
    | (none, visited2, queue2) => bfsLoop edges endId fuel queue2 visited2

/-- `findShortestPath(startId, endId)` (network-graph.js lines 796-824):
BFS over the undirected adjacency induced by `this.edges`, with the
whole-path-in-queue representation used by the source. -/
def findShortestPath (edges : List EdgeS) (startId endId : String) :
    Option (List String) :=
  if startId = endId then some [startId]
  else bfsLoop edges endId (4 * edges.length + 2) [[startId]] {startId}

/-- Undirected adjacency induced by the edge list (an edge relates its
endpoints in both directions, as used by BFS and by the simulation). -/
def Adj (edges : List EdgeS) (a b : String) : Prop :=
  ∃ e ∈ edges, (e.source = a ∧ e.target = b) ∨ (e.source = b ∧ e.target = a)

/-- `w` is an ordered sequence of node ids forming a walk from `a` to `b`
along undirected edges. -/
def WalkFrom (edges : List EdgeS) (a b : String) (w : List String) : Prop :=
  w.Chain' (Adj edges) ∧ w.head? = some a ∧ w.getLast? = some b

/-- `v` is reachable from `start` by a walk of at most `n` edges. -/
def ReachIn (edges : List EdgeS) (start : String) : Nat → String → Prop
  | 0, v => v = start
  | n + 1, v => ReachIn edges start n v ∨ ∃ u, ReachIn edges start n u ∧ Adj edges u v

/-- A concrete 5-node path graph A-B-C-D-E. -/
def pathGraphEdges : List EdgeS :=
  [ { id := "e1", source := "A", target := "B", type := "Related", strength := "Medium" }
  , { id := "e2", source := "B", target := "C", type := "Related", strength := "Medium" }
  , { id := "e3", source := "C", target := "D", type := "Related", strength := "Medium" }
  , { id := "e4", source := "D", target := "E", type := "Related", strength := "Medium" } ]

/-- Two disconnected components: A-B and C-D. -/
def twoComponentsEdges : List EdgeS :=
  [ { id := "e1", source := "A", target := "B", type := "Related", strength := "Medium" }
  , { id := "e2", source := "C", target := "D", type := "Related", strength := "Medium" } ]

/-! ## Force simulation (`applyForces`, lines 362-453) -/

/-- `repulsionStrength` constant of `applyForces`. -/
def repulsionStrength : ℚ := 6000

/-- `attractionStrength` constant of `applyForces`. -/
def attractionStrength : ℚ := 0.06

/-- `centerStrength` constant of `applyForces`. -/
def centerStrength : ℚ := 0.02

/-- `layerStrength` constant of `applyForces`. -/
def layerStrength : ℚ := 0.03

/-- `damping` constant of `applyForces`. -/
def damping : ℚ := 0.8

/-- In-place mutation of the node at index `i` of `this.nodes`. -/
def updAt : List NodeS → Nat → (NodeS → NodeS) → List NodeS
  | [], _, _ => []
  | n :: ns, 0, f => f n :: ns
  | n :: ns, i + 1, f => n :: updAt ns i f

/-- One iteration of the pairwise repulsion double loop: nodes `i` and `j`
push each other apart with an inverse-square force (minimum distance 1),
with a 1.5 multiplier for same-layer pairs. -/
def repulsionPair (sq : ℚ → ℚ) (alpha : ℚ) (nodes : List NodeS) (i j : Nat) :
    List NodeS :=
  match nodes[i]?, nodes[j]? with
  | some n1, some n2 =>
    let dx := n1.x - n2.x
    let dy := n1.y - n2.y
    let dist0 := sq (dx * dx + dy * dy)
    let dist := if dist0 < 1 then 1 else dist0
    let layerMultiplier : ℚ := if n1.layer = n2.layer then 1.5 else 1.0
    let force := repulsionStrength * layerMultiplier / (dist * dist) * alpha
    let fx := dx / dist * force
    let fy := dy / dist * force
    let nodes1 := updAt nodes i fun n => { n with vx := n.vx + fx, vy := n.vy + fy }
    updAt nodes1 j fun n => { n with vx := n.vx - fx, vy := n.vy - fy }
  | _, _ => nodes

/-- The `for (let i ...) for (let j = i + 1 ...)` repulsion loops. -/
def repulsionPhase (sq : ℚ → ℚ) (alpha : ℚ) (nodes : List NodeS) : List NodeS :=
  (List.range nodes.length).foldl
    (fun acc i =>
      (List.range' (i + 1) (nodes.length - (i + 1))).foldl
        (fun acc2 j => repulsionPair sq alpha acc2 i j) acc)
    nodes

/-- One iteration of the `this.edges.forEach` attraction loop: the edge
pulls its endpoints toward a strength-dependent target distance; edges
whose source or target id is not found are skipped. -/
def attractionEdge (sq : ℚ → ℚ) (alpha : ℚ) (nodes : List NodeS) (edge : EdgeS) :
    List NodeS :=
  match nodes.findIdx? (fun n => n.id == edge.source),
        nodes.findIdx? (fun n => n.id == edge.target) with
  | some si, some ti =>
    match nodes[si]?, nodes[ti]? with
    | some source, some target =>
      let dx := target.x - source.x
      let dy := target.y - source.y
      let dist := sq (dx * dx + dy * dy)
      let targetDist : ℚ :=
        if edge.strength == "Strong" then 100
        else if edge.strength == "Medium" then 140 else 180
      let force := (dist - targetDist) * attractionStrength * alpha
      let fx := dx / max 1 dist * force
      let fy := dy / max 1 dist * force
      let nodes1 := updAt nodes si fun n => { n with vx := n.vx + fx, vy := n.vy + fy }
      updAt nodes1 ti fun n => { n with vx := n.vx - fx, vy := n.vy - fy }
    | _, _ => nodes
  | _, _ => nodes

/-- `Math.max(-maxDist, Math.min(maxDist, v))` with `maxDist = 500`: the
boundary constraint applied to each coordinate. -/
def clamp500 (v : ℚ) : ℚ := max (-500) (min 500 v)

/-- The velocity half of the per-node body of the final `this.nodes.forEach`
loop of `applyForces`: centering (strong for the center node, weak plus a
layer-retention pull otherwise), then damping. -/
def integrateVel (sq : ℚ → ℚ) (alpha : ℚ) (node : NodeS) : NodeS :=
  let node1 :=
    if node.isCenter then
      { node with vx := node.vx - node.x * 0.1 * alpha
                  vy := node.vy - node.y * 0.1 * alpha }
    else
      let node0 := { node with vx := node.vx - node.x * centerStrength * alpha
                               vy := node.vy - node.y * centerStrength * alpha }
      let currentDist := sq (node.x * node.x + node.y * node.y)
      let targetDist : ℚ := (node.layer : ℚ) * 180
      if 0 < currentDist ∧ 0 < targetDist then
        let distDiff := currentDist - targetDist
        let force := distDiff * layerStrength * alpha
        { node0 with vx := node0.vx - node.x / currentDist * force
                     vy := node0.vy - node.y / currentDist * force }
      else node0
  { node1 with vx := node1.vx * damping, vy := node1.vy * damping }

/-- The full per-node body: velocity update, then `position += velocity`
with the position clamped to the square `[-500, 500] × [-500, 500]`. -/
def integrateNode (sq : ℚ → ℚ) (alpha : ℚ) (node : NodeS) : NodeS :=
  let nv := integrateVel sq alpha node
  { nv with x := clamp500 (nv.x + nv.vx), y := clamp500 (nv.y + nv.vy) }

/-- The final `this.nodes.forEach` loop, skipping the node that is
reference-equal to `this.draggedNode` (modelled by its index): that node
receives no centering force, no damping, and no position update. -/
def integratePhase (sq : ℚ → ℚ) (alpha : ℚ) (draggedNode : Option Nat) :
    Nat → List NodeS → List NodeS
  | _, [] => []
  | i, n :: ns =>
    (if draggedNode = some i then n else integrateNode sq alpha n) ::
      integratePhase sq alpha draggedNode (i + 1) ns

/-- `applyForces(alpha)` (lines 362-453): repulsion between all pairs,
attraction along edges, then centering/damping/integration/clamping for
every node except the dragged one. -/
def applyForces (sq : ℚ → ℚ) (alpha : ℚ) (nodes : List NodeS)
    (edges : List EdgeS) (draggedNode : Option Nat) : List NodeS :=
  integratePhase sq alpha draggedNode 0
    (edges.foldl (attractionEdge sq alpha) (repulsionPhase sq alpha nodes))

/-! ## Engine state, simulation loop, interaction and zoom -/

/-- The SVG viewBox rectangle in model coordinates. -/
structure ViewBox where
  x : ℚ
  y : ℚ
  width : ℚ
  height : ℚ
deriving DecidableEq, Repr

/-- The pixel bounding rectangle of the SVG element
(`this.svg.getBoundingClientRect()`). -/
structure Rect where
  left : ℚ
  top : ℚ
  width : ℚ
  height : ℚ
deriving DecidableEq, Repr

/-- The mutable per-instance state of a `NetworkGraph`.  `draggedNode` and
`selectedNode` hold the index of the referenced node (the JS fields hold
the node object itself); `steps` models the local counter captured by the
`startSimulation` closure. -/
structure GraphState where
  nodes : List NodeS
  edges : List EdgeS
  draggedNode : Option Nat
  selectedNode : Option Nat
  isPanning : Bool
  panStart : ℚ × ℚ
  viewBox : ViewBox
  zoom : ℚ
  simulationRunning : Bool
  steps : Nat
deriving DecidableEq, Repr

/-- `maxSteps` of `startSimulation`. -/
def maxSteps : Nat := 150

/-- `startSimulation()` entry: sets `simulationRunning` and resets the
closure-local step counter before the first scheduled tick. -/
def startSimulation (st : GraphState) : GraphState :=
  { st with simulationRunning := true, steps := 0 }

/-- One scheduled `tick` of `startSimulation` (lines 345-357): if the
simulation was cancelled or the step budget is exhausted, transition to
Idle without touching the nodes and stop rescheduling; otherwise advance
the counter, compute the linearly cooling `alpha`, and apply forces.
(`updatePositions` only writes SVG attributes and is not modelled.) -/
def simTick (sq : ℚ → ℚ) (st : GraphState) : GraphState :=
  if ¬ st.simulationRunning ∨ maxSteps ≤ st.steps then
    { st with simulationRunning := false }
  else
    let steps2 := st.steps + 1
    let alpha : ℚ := 1 - (steps2 : ℚ) / (maxSteps : ℚ)
    { st with steps := steps2
              nodes := applyForces sq alpha st.nodes st.edges st.draggedNode }

/-- `n` scheduled animation-frame callbacks in sequence. -/
def runTicks (sq : ℚ → ℚ) : Nat → GraphState → GraphState
  | 0, st => st
  | n + 1, st => runTicks sq n (simTick sq st)

/-- `destroy()` (lines 833-836): cancels the simulation.  (It also clears
the container's DOM content, which is not part of the engine state.) -/
def destroy (st : GraphState) : GraphState :=
  { st with simulationRunning := false }

/-- The `mousedown` handler on a node group: the first node with the given
id becomes both the dragged node and the selected node. -/
def mousedownNode (st : GraphState) (nodeId : String) : GraphState :=
  let idx := st.nodes.findIdx? fun n => n.id == nodeId
  { st with draggedNode := idx, selectedNode := idx }

/-- The `mousemove` handler (lines 514-533): while a node is dragged its
position is set directly to the pointer position transformed into model
coordinates; while panning the viewBox origin is shifted by the pointer
delta scaled by the zoom factor. -/
def mousemove (st : GraphState) (clientX clientY : ℚ) (rect : Rect) : GraphState :=
  match st.draggedNode with
  | some i =>
    let svgX := (clientX - rect.left) / rect.width * st.viewBox.width + st.viewBox.x
    let svgY := (clientY - rect.top) / rect.height * st.viewBox.height + st.viewBox.y
    { st with nodes := updAt st.nodes i fun n => { n with x := svgX, y := svgY } }
  | none =>
    if st.isPanning then
      let dx := (clientX - st.panStart.1) * st.zoom
      let dy := (clientY - st.panStart.2) * st.zoom
      { st with viewBox := { st.viewBox with x := st.viewBox.x - dx, y := st.viewBox.y - dy }
                panStart := (clientX, clientY) }
    else st

/-- The `mouseup` handler (lines 535-539): clears the dragged-node and
panning sub-state; nothing else is touched. -/
def mouseup (st : GraphState) : GraphState :=
  { st with draggedNode := none, isPanning := false }

/-- `zoomIn()` (lines 559-566): decreases the zoom scalar by 0.1 (clamped
below at 0.5), rescales the viewBox to `1000·zoom × 800·zoom`, and centers
it on the model origin. -/
def zoomInOp (st : GraphState) : GraphState :=
  let z := max 0.5 (st.zoom - 0.1)
  let w := 1000 * z
  let h := 800 * z
  { st with zoom := z, viewBox := { x := -w / 2, y := -h / 2, width := w, height := h } }

/-- `zoomOut()` (lines 568-575): increases the zoom scalar by 0.1 (clamped
above at 2), rescales the viewBox, and centers it on the model origin. -/
def zoomOutOp (st : GraphState) : GraphState :=
  let z := min 2 (st.zoom + 0.1)
  let w := 1000 * z
  let h := 800 * z
  { st with zoom := z, viewBox := { x := -w / 2, y := -h / 2, width := w, height := h } }

/-! ## Display state touched by the highlight operations -/

/-- The attributes of an edge's SVG line element that the render and
highlight code reads or writes. -/
structure LineAttrs where
  classes : List String
  stroke : String
  strokeWidth : ℚ
  strokeOpacity : String
  animates : Nat
  datasetStrength : Option String
deriving DecidableEq, Repr

/-- The attributes of one `circle` element of a node group that the render
and highlight code reads or writes.  A group may contain several circles:
an optional layer ring, an optional risk ring, and the main circle. -/
structure CircleAttrs where
  stroke : String
  strokeWidth : ℚ
  filter : Option String
deriving DecidableEq, Repr

/-- The SVG state manipulated by `highlightPath` and `clearPathHighlight`:
edge line elements keyed by `data-edge-id`, and for each node group (keyed
by `data-node-id`) the list of its `circle` elements in document order —
`querySelector('circle')` returns the head of that list. -/
structure DisplayState where
  edgeLines : List (String × LineAttrs)
  nodeCircles : List (String × List CircleAttrs)
deriving DecidableEq, Repr

/-- `getEdgeColor(strength)` (lines 648-655). -/
def getEdgeColor (strength : String) : String :=
  if strength == "Strong" then "#475569"
  else if strength == "Medium" then "#94a3b8"
  else if strength == "Weak" then "#cbd5e1"
  else "#94a3b8"

/-- `getEdgeWidth(strength)` (lines 657-660). -/
def getEdgeWidth (strength : String) : ℚ :=
  if strength == "Strong" then 3
  else if strength == "Medium" then 2
  else if strength == "Weak" then 1
  else 2

/-- `renderEdges()` (lines 173-209): one line element per edge whose two
endpoints are found among the nodes, with strength-dependent stroke color
and width.  Note that `dataset.strength` is never written. -/
def renderEdges (nodes : List NodeS) (edges : List EdgeS) :
    List (String × LineAttrs) :=
  edges.filterMap fun edge =>
    match nodes.find? (fun n => n.id == edge.source),
          nodes.find? (fun n => n.id == edge.target) with
    | some _, some _ =>
      some (edge.id,
        { classes := ["edge-line"]
          stroke := getEdgeColor edge.strength
          strokeWidth := getEdgeWidth edge.strength
          strokeOpacity := "0.6"
          animates := 0
          datasetStrength := none })
    | _, _ => none

/-- `getRiskColor(score)` (lines 634-639). -/
def getRiskColor (score : ℚ) : String :=
  if 80 ≤ score then "#ef4444"
  else if 60 ≤ score then "#f59e0b"
  else if 40 ≤ score then "#3b82f6"
  else "#22c55e"

/-- The `circle` elements of one node group as `renderNodes()` (lines
211-307) appends them, in document order: a layer ring (stroke `#e2e8f0`,
width 1, no filter) for non-center nodes with `layer > 0`, then a risk
ring (stroke `getRiskColor`, width 3, no filter; its pulse animation is
never touched by the highlight code) for `riskScore >= 60`, then the main
circle with center-dependent stroke and the drop-shadow filter. -/
def nodeGroupCircles (node : NodeS) : List CircleAttrs :=
  (if ¬ node.isCenter ∧ 0 < node.layer then
    [{ stroke := "#e2e8f0", strokeWidth := 1, filter := none }]
  else []) ++
  (if 60 ≤ node.riskScore then
    [{ stroke := getRiskColor node.riskScore, strokeWidth := 3, filter := none }]
  else []) ++
  [{ stroke := if node.isCenter then "#1e40af" else "#fff"
     strokeWidth := if node.isCenter then 4 else 2
     filter := some "shadow" }]

/-- `renderNodes()` (lines 211-307), restricted to the `circle` elements
of each node group. -/
def renderNodes (nodes : List NodeS) : List (String × List CircleAttrs) :=
  nodes.map fun node => (node.id, nodeGroupCircles node)

/-- `nodeGroup.querySelector('circle')` followed by a mutation: applies
`f` to the first `circle` element of the group, which is the layer or risk
ring when one precedes the main circle. -/
def applyToFirstCircle (f : CircleAttrs → CircleAttrs) :
    List CircleAttrs → List CircleAttrs
  | [] => []
  | c :: rest => f c :: rest

/-- `render()` (lines 168-171). -/
def renderDisplay (nodes : List NodeS) (edges : List EdgeS) : DisplayState :=
  { edgeLines := renderEdges nodes edges, nodeCircles := renderNodes nodes }

/-- The per-line body of the edge loop of `clearPathHighlight` (lines
772-778): only lines carrying the `path-highlight` class are touched;
their stroke is restored from `line.dataset.strength || 'Medium'` (a
dataset entry that is never written) and their animations removed. -/
def clearLine (line : LineAttrs) : LineAttrs :=
  if "path-highlight" ∈ line.classes then
    { line with classes := line.classes.filter fun c => c != "path-highlight"
                stroke := getEdgeColor (jsOrDefault line.datasetStrength "Medium")
                strokeWidth := getEdgeWidth (jsOrDefault line.datasetStrength "Medium")
                animates := 0 }
  else line

/-- The per-circle body of the node loop of `clearPathHighlight` (lines
781-790): the circle found by `querySelector('circle')` is reset to the
main circle's center-dependent base stroke — even when that circle is a
layer or risk ring — and its `filter` attribute is removed (not restored
to the drop shadow); nothing happens if the node id is unknown. -/
def clearCircle (nodes : List NodeS) (nodeId : String) (c : CircleAttrs) :
    CircleAttrs :=
  match nodes.find? (fun n => n.id == nodeId) with
  | some node =>
    { stroke := if node.isCenter then "#1e40af" else "#fff"
      strokeWidth := if node.isCenter then 4 else 2
      filter := none }
  | none => c

/-- `clearPathHighlight()` (lines 771-793): the node loop runs over every
node group and restyles only the group's first `circle` element. -/
def clearPathHighlight (nodes : List NodeS) (disp : DisplayState) : DisplayState :=
  { edgeLines := disp.edgeLines.map fun p => (p.1, clearLine p.2)
    nodeCircles := disp.nodeCircles.map fun p =>
      (p.1, applyToFirstCircle (clearCircle nodes p.1) p.2) }

/-- `querySelector` keyed update: applies `f` to the first element with
the given key, if any. -/
def updFirst (key : String) (f : α → α) : List (String × α) → List (String × α)
  | [] => []
  | (k, v) :: rest =>
    if k == key then (k, f v) :: rest else (k, v) :: updFirst key f rest

/-- The highlight styling applied to a path edge's line by `highlightPath`
(lines 736-752): class replaced, blue stroke, width 4, animation added. -/
def setLineHighlight (l : LineAttrs) : LineAttrs :=
  { l with classes := ["edge-line", "path-highlight"]
           stroke := "#3b82f6"
           strokeWidth := 4
           animates := l.animates + 1 }

/-- One iteration of the edge-highlight loop of `highlightPath`: find the
first model edge connecting the two consecutive path nodes in either
direction and, if its line exists in the DOM, apply highlight styling. -/
def highlightEdgeStep (edges : List EdgeS) (sourceId targetId : String)
    (lines : List (String × LineAttrs)) : List (String × LineAttrs) :=
  match edges.find? (fun e =>
      (e.source == sourceId && e.target == targetId) ||
      (e.source == targetId && e.target == sourceId)) with
  | some edge => updFirst edge.id setLineHighlight lines
  | none => lines

/-- The `for (let i = 0; i < path.length - 1; i++)` loop of
`highlightPath`, walking consecutive pairs of the path. -/
def highlightPathEdges (edges : List EdgeS) :
    List String → List (String × LineAttrs) → List (String × LineAttrs)
  | a :: b :: rest, lines =>
    highlightPathEdges edges (b :: rest) (highlightEdgeStep edges a b lines)
  | _, lines => lines

/-- The highlight styling applied by `highlightPath` (lines 757-765) to
the circle found by `querySelector('circle')` in a path node's group —
the layer or risk ring when one precedes the main circle: blue stroke,
width 4, glow filter. -/
def setCircleHighlight (_c : CircleAttrs) : CircleAttrs :=
  { stroke := "#3b82f6", strokeWidth := 4, filter := some "glow" }

/-- The `path.forEach` node-highlight loop of `highlightPath`: per path
node id, the first matching group's first `circle` element is restyled. -/
def highlightPathNodes (path : List String)
    (circles : List (String × List CircleAttrs)) :
    List (String × List CircleAttrs) :=
  path.foldl
    (fun acc nodeId => updFirst nodeId (applyToFirstCircle setCircleHighlight) acc)
    circles

/-- `highlightPath(sourceNodeId, targetNodeId)` (lines 718-768): BFS for
the shortest path; paths shorter than two nodes (or no path) return
`false` and leave the display untouched; otherwise previous path
highlights are cleared and the path's edges and nodes are highlighted. -/
def highlightPath (nodes : List NodeS) (edges : List EdgeS)
    (disp : DisplayState) (sourceNodeId targetNodeId : String) :
    Bool × DisplayState :=
  match findShortestPath edges sourceNodeId targetNodeId with
  | none => (false, disp)
  | some path =>
    if path.length < 2 then (false, disp)
    else
      let disp1 := clearPathHighlight nodes disp
      let disp2 := { disp1 with edgeLines := highlightPathEdges edges path disp1.edgeLines }
      let disp3 := { disp2 with nodeCircles := highlightPathNodes path disp2.nodeCircles }
      (true, disp3)

/-! ## Concrete instances used by witnesses and counterexamples -/

/-- The largest natural number whose square is at most `n` (by exhaustive
search, so that it evaluates by kernel reduction). -/
def intSqrt (n : Nat) : Nat :=
  ((List.range (n + 1)).filter fun k => k * k ≤ n).getLastD 0

/-- An exact rational square root, standing in for `Math.sqrt` at inputs
whose numerator and denominator are perfect squares (the only inputs the
concrete scenarios below produce). -/
def ratSqrt (q : ℚ) : ℚ := (intSqrt q.num.toNat : ℚ) / (intSqrt q.den : ℚ)

/-- A non-center node at the origin with zero velocity. -/
def nodeADrag : NodeS :=
  { id := "A", x := 0, y := 0, vx := 0, vy := 0, isCenter := false, layer := 1,
    riskScore := 0 }

/-- A non-center node at `(3, 4)` (distance 5 from the origin) with zero
velocity. -/
def nodeB0 : NodeS :=
  { id := "B", x := 3, y := 4, vx := 0, vy := 0, isCenter := false, layer := 2,
    riskScore := 0 }

/-- A non-center node at `(10, 10)`, the pre-drag position in the drag
scenario. -/
def nodeA0 : NodeS :=
  { id := "A", x := 10, y := 10, vx := 0, vy := 0, isCenter := false, layer := 1,
    riskScore := 0 }

/-- The engine state right after construction: default viewBox, zoom 1. -/
def baseState : GraphState :=
  { nodes := [], edges := [], draggedNode := none, selectedNode := none,
    isPanning := false, panStart := (0, 0),
    viewBox := { x := -500, y := -400, width := 1000, height := 800 },
    zoom := 1, simulationRunning := false, steps := 0 }

/-- A two-node state with a running simulation, used by the drag scenario. -/
def dragState0 : GraphState :=
  { baseState with nodes := [nodeA0, nodeB0], simulationRunning := true }

/-- The pixel bounding rectangle of the SVG in the drag scenario. -/
def dragRect : Rect := { left := 0, top := 0, width := 1000, height := 800 }

/-- The dangling relationship record: its target id names no node. -/
def danglingRel : RelRecord :=
  { id := "e9", sourceEntityId := "A", targetEntityId := "ZZZ",
    type := none, strength := none }

/-- The edge `parseEdges` produces from `danglingRel`. -/
def danglingEdge : EdgeS :=
  { id := "e9", source := "A", target := "ZZZ",
    type := "Related", strength := "Medium" }

/-- The single node of the C9 witness scenario after one force step. -/
def nodeBAfter : NodeS :=
  { id := "B", x := 1008/125, y := 1344/125, vx := 633/125, vy := 844/125,
    isCenter := false, layer := 2, riskScore := 0 }

/-- The node list after the full drag scenario: mousedown on node A, a
mousemove carrying it to the model origin, one simulation tick while the
drag is active, then mouseup. -/
def endDragNodes : List NodeS :=
  (mouseup (simTick ratSqrt (mousemove (mousedownNode dragState0 "A") 500 400 dragRect))).nodes

/-- A viewport that has been panned so that its origin is `(0, 0)`. -/
def pannedState : GraphState :=
  { baseState with viewBox := { x := 0, y := 0, width := 1000, height := 800 } }

/-- The empty display state. -/
def emptyDisp : DisplayState := { edgeLines := [], nodeCircles := [] }

/-- A Strong edge between nodes A and B of the round-trip scenario. -/
def strongEdge : EdgeS :=
  { id := "e1", source := "A", target := "B", type := "Related", strength := "Strong" }

/-- A ringless node (non-center, layer 0, low risk): its group's only
circle is the main circle. -/
def nodeD0 : NodeS :=
  { id := "D", x := -50, y := 0, vx := 0, vy := 0, isCenter := false, layer := 0,
    riskScore := 0 }

/-- The nodes of the round-trip scenario: A and B are ring-fronted
(layer 1 and 2), D is ringless and off the path. -/
def roundNodes : List NodeS := [nodeADrag, nodeB0, nodeD0]

/-- The display as rendered for the round-trip scenario. -/
def roundDisp0 : DisplayState := renderDisplay roundNodes [strongEdge]

/-- The display after `highlightPath("A","B")` followed immediately by
`clearPathHighlight()`. -/
def roundDisp2 : DisplayState :=
  clearPathHighlight roundNodes
    (highlightPath roundNodes [strongEdge] roundDisp0 "A" "B").2

/-- A third node, disconnected from the A-B path in the C7 scenario. -/
def nodeC0 : NodeS :=
  { id := "C", x := 100, y := 0, vx := 0, vy := 0, isCenter := false, layer := 1,
    riskScore := 0 }

/-- The node list of the C7 scenario. -/
def c7Nodes : List NodeS := [nodeADrag, nodeB0, nodeC0]

/-- Edges A-B and B-C of the C7 scenario. -/
def c7Edges : List EdgeS :=
  [ { id := "e1", source := "A", target := "B", type := "Related", strength := "Medium" }
  , { id := "e2", source := "B", target := "C", type := "Related", strength := "Medium" } ]

/-- The rendered display of the C7 scenario. -/
def c7Disp0 : DisplayState := renderDisplay c7Nodes c7Edges

/-- The edge ids that the edge loop of `highlightPath` looks up for the
consecutive pairs of the path (first matching model edge per pair). -/
def pathEdgeIds (edges : List EdgeS) : List String → List String
  | a :: b :: rest =>
    (match edges.find? (fun e =>
        (e.source == a && e.target == b) || (e.source == b && e.target == a)) with
     | some e => [e.id]
     | none => []) ++ pathEdgeIds edges (b :: rest)
  | _ => []

/-- The finite universe the BFS can ever visit: the start id and every
edge endpoint. -/
def univFS (edges : List EdgeS) (startId : String) : Finset String :=
  insert startId ((edges.map EdgeS.source).toFinset ∪ (edges.map EdgeS.target).toFinset)

/-- Positions (and only positions) of the node list, used to state that the
repulsion and attraction phases move no node. -/
def posOf (l : List NodeS) : List (ℚ × ℚ) := l.map fun n => (n.x, n.y)

/-- The invariant maintained by the BFS loop of `findShortestPath`. -/
structure BfsInv (edges : List EdgeS) (startId endId : String)
    (queue : List (List String)) (visited : Finset String) : Prop where
  start_vis : startId ∈ visited
  end_not_vis : endId ∉ visited
  vis_univ : ∀ v ∈ visited, v ∈ univFS edges startId
  walks : ∀ p ∈ queue, p ≠ [] ∧ WalkFrom edges startId (p.getLastD "") p
  elems_vis : ∀ p ∈ queue, ∀ x ∈ p, x ∈ visited
  sorted : List.Pairwise (· ≤ ·) (queue.map List.length)
  window : ∀ p ∈ queue, ∀ q ∈ queue, p.length ≤ q.length + 1
  shortest : ∀ p ∈ queue, ∀ n, n + 2 ≤ p.length →
    ¬ ReachIn edges startId n (p.getLastD "")
  expanded : ∀ u ∈ visited,
    (∃ p ∈ queue, p.getLastD "" = u) ∨
    ((∀ v, Adj edges u v → v ∈ visited) ∧ ¬ Adj edges u endId)

/- Batteries marks the rational operations `@[irreducible]`, which blocks
`decide` from evaluating the concrete scenarios; the kernel ignores
reducibility, so making them semireducible locally is sound. -/
attribute [local semireducible] Rat.add Rat.mul Rat.inv Rat.sub Rat.ofScientific

/-! ## Helper lemmas about the force phases -/

theorem updAt_length (l : List NodeS) (i : Nat) (f : NodeS → NodeS) :
    (updAt l i f).length = l.length := by
  induction l generalizing i with
  | nil => rfl
  | cons n ns ih => cases i with
    | zero => rfl
    | succ j => simpa [updAt] using ih j

theorem getElem?_updAt_self (l : List NodeS) (i : Nat) (f : NodeS → NodeS) :
    (updAt l i f)[i]? = (l[i]?).map f := by
  induction l generalizing i with
  | nil => simp [updAt]
  | cons n ns ih => cases i with
    | zero => simp [updAt]
    | succ j => simpa [updAt] using ih j

theorem posOf_updAt (l : List NodeS) (i : Nat) (f : NodeS → NodeS)
    (h : ∀ n, (f n).x = n.x ∧ (f n).y = n.y) :
    posOf (updAt l i f) = posOf l := by
  induction l generalizing i with
  | nil => rfl
  | cons n ns ih => cases i with
    | zero => simp [updAt, posOf, (h n).1, (h n).2]
    | succ j => simpa [updAt, posOf] using ih j

theorem posOf_repulsionPair (sq : ℚ → ℚ) (alpha : ℚ) (l : List NodeS) (i j : Nat) :
    posOf (repulsionPair sq alpha l i j) = posOf l := by
  unfold repulsionPair
  cases h1 : l[i]? with
  | none => rfl
  | some n1 =>
    cases h2 : l[j]? with
    | none => rfl
    | some n2 =>
      simp only []
      rw [posOf_updAt, posOf_updAt] <;> exact fun n => ⟨rfl, rfl⟩

theorem posOf_attractionEdge (sq : ℚ → ℚ) (alpha : ℚ) (l : List NodeS) (e : EdgeS) :
    posOf (attractionEdge sq alpha l e) = posOf l := by
  unfold attractionEdge
  cases hs : l.findIdx? (fun n => n.id == e.source) with
  | none => rfl
  | some si =>
    cases ht : l.findIdx? (fun n => n.id == e.target) with
    | none => rfl
    | some ti =>
      cases h1 : l[si]? <;> cases h2 : l[ti]? <;> simp only [h1, h2]
      rw [posOf_updAt, posOf_updAt] <;> exact fun n => ⟨rfl, rfl⟩

theorem posOf_foldl {β : Type} (f : List NodeS → β → List NodeS)
    (h : ∀ a b, posOf (f a b) = posOf a) :
    ∀ (bs : List β) (a : List NodeS), posOf (bs.foldl f a) = posOf a := by
  intro bs
  induction bs with
  | nil => intro a; rfl
  | cons b bs ih => intro a; rw [List.foldl_cons, ih, h]

theorem posOf_repulsionPhase (sq : ℚ → ℚ) (alpha : ℚ) (l : List NodeS) :
    posOf (repulsionPhase sq alpha l) = posOf l := by
  unfold repulsionPhase
  exact posOf_foldl _
    (fun a i => posOf_foldl _ (fun a2 j => posOf_repulsionPair sq alpha a2 i j) _ a) _ _

theorem posOf_attractionFold (sq : ℚ → ℚ) (alpha : ℚ) (edges : List EdgeS)
    (l : List NodeS) :
    posOf (edges.foldl (attractionEdge sq alpha) l) = posOf l :=
  posOf_foldl _ (fun a e => posOf_attractionEdge sq alpha a e) edges l

theorem getElem?_integratePhase (sq : ℚ → ℚ) (alpha : ℚ) (dragged : Option Nat) :
    ∀ (l : List NodeS) (k i : Nat),
      (integratePhase sq alpha dragged k l)[i]? =
        (l[i]?).map fun n =>
          if dragged = some (k + i) then n else integrateNode sq alpha n := by
  intro l
  induction l with
  | nil => intro k i; simp [integratePhase]
  | cons n ns ih =>
    intro k i
    cases i with
    | zero => simp [integratePhase]
    | succ j =>
      have harith : k + (j + 1) = (k + 1) + j := by omega
      simp only [integratePhase, List.getElem?_cons_succ, ih (k + 1) j, harith]

theorem getElem?_applyForces (sq : ℚ → ℚ) (alpha : ℚ) (nodes : List NodeS)
    (edges : List EdgeS) (dragged : Option Nat) (i : Nat) :
    (applyForces sq alpha nodes edges dragged)[i]? =
      ((edges.foldl (attractionEdge sq alpha) (repulsionPhase sq alpha nodes))[i]?).map
        (fun n => if dragged = some i then n else integrateNode sq alpha n) := by
  unfold applyForces
  rw [getElem?_integratePhase]
  simp

theorem clamp500_mem (v : ℚ) : -500 ≤ clamp500 v ∧ clamp500 v ≤ 500 :=
  ⟨le_max_left _ _, max_le (by norm_num) (min_le_left _ _)⟩

theorem integrateNode_x (sq : ℚ → ℚ) (alpha : ℚ) (n : NodeS) :
    (integrateNode sq alpha n).x =
      clamp500 ((integrateVel sq alpha n).x + (integrateVel sq alpha n).vx) := rfl

theorem integrateNode_y (sq : ℚ → ℚ) (alpha : ℚ) (n : NodeS) :
    (integrateNode sq alpha n).y =
      clamp500 ((integrateVel sq alpha n).y + (integrateVel sq alpha n).vy) := rfl

theorem getElem?_posOf (l : List NodeS) (i : Nat) :
    (posOf l)[i]? = (l[i]?).map fun n => (n.x, n.y) := by
  simp [posOf]

/-! ## Simulation-loop helper lemmas -/

theorem simTick_steps_le (sq : ℚ → ℚ) (st : GraphState)
    (h : st.steps ≤ maxSteps) : (simTick sq st).steps ≤ maxSteps := by
  unfold simTick
  by_cases hc : ¬ st.simulationRunning = true ∨ maxSteps ≤ st.steps
  · rw [if_pos hc]; exact h
  · rw [if_neg hc]; push_neg at hc; simpa using hc.2

theorem runTicks_steps_le (sq : ℚ → ℚ) :
    ∀ (n : Nat) (st : GraphState), st.steps ≤ maxSteps →
      (runTicks sq n st).steps ≤ maxSteps := by
  intro n
  induction n with
  | zero => intro st h; exact h
  | succ m ih => intro st h; exact ih _ (simTick_steps_le sq st h)

theorem simTick_running (sq : ℚ → ℚ) (st : GraphState)
    (h : (simTick sq st).simulationRunning = true) :
    st.simulationRunning = true ∧ st.steps < maxSteps ∧
      (simTick sq st).steps = st.steps + 1 := by
  unfold simTick at h ⊢
  by_cases hc : ¬ st.simulationRunning = true ∨ maxSteps ≤ st.steps
  · rw [if_pos hc] at h; simp at h
  · rw [if_neg hc] at h ⊢
    push_neg at hc
    exact ⟨hc.1, hc.2, rfl⟩

theorem runTicks_running_mono (sq : ℚ → ℚ) :
    ∀ (n : Nat) (st : GraphState),
      (runTicks sq n st).simulationRunning = true →
        st.simulationRunning = true := by
  intro n
  induction n with
  | zero => intro st h; exact h
  | succ m ih => intro st h; exact (simTick_running sq st (ih _ h)).1

theorem runTicks_running_steps (sq : ℚ → ℚ) :
    ∀ (n : Nat) (st : GraphState),
      (runTicks sq n st).simulationRunning = true →
        (runTicks sq n st).steps = st.steps + n := by
  intro n
  induction n with
  | zero => intro st _; rfl
  | succ m ih =>
    intro st h
    have hrun : (simTick sq st).simulationRunning = true :=
      runTicks_running_mono sq m (simTick sq st) h
    have hsteps := (simTick_running sq st hrun).2.2
    show (runTicks sq m (simTick sq st)).steps = st.steps + (m + 1)
    rw [ih (simTick sq st) h, hsteps]
    omega

/-! ## Claim C9: positions are clamped to the bounded square -/

/-- C9 (confirmed).  For every simulation step and every node that is not
the dragged one, the node's post-step position lies in the square
`[-500, 500] × [-500, 500]` — the clamp is applied unconditionally at the
end of the integration phase, so the bound is an invariant preserved by
every step (it holds even if the incoming position was out of bounds). -/
theorem positions_clamped (sq : ℚ → ℚ) (alpha : ℚ) (nodes : List NodeS)
    (edges : List EdgeS) (dragged : Option Nat) (i : Nat) (n' : NodeS)
    (hd : dragged ≠ some i)
    (h : (applyForces sq alpha nodes edges dragged)[i]? = some n') :
    -500 ≤ n'.x ∧ n'.x ≤ 500 ∧ -500 ≤ n'.y ∧ n'.y ≤ 500 := by
  rw [getElem?_applyForces] at h
  cases h2 : (edges.foldl (attractionEdge sq alpha) (repulsionPhase sq alpha nodes))[i]? with
  | none => rw [h2] at h; simp at h
  | some m =>
    rw [h2] at h
    simp only [Option.map_some', Option.some.injEq, if_neg hd] at h
    rw [← h, integrateNode_x, integrateNode_y]
    exact ⟨(clamp500_mem _).1, (clamp500_mem _).2, (clamp500_mem _).1, (clamp500_mem _).2⟩

theorem positions_clamped_witness :
    ((none : Option Nat) ≠ some 0) ∧
    ((applyForces ratSqrt 1 [nodeB0] [] none)[0]? = some nodeBAfter) ∧
    (-500 ≤ nodeBAfter.x ∧ nodeBAfter.x ≤ 500 ∧
      -500 ≤ nodeBAfter.y ∧ nodeBAfter.y ≤ 500) :=
  ⟨by decide, by decide,
    positions_clamped ratSqrt 1 [nodeB0] [] none 0 nodeBAfter (by decide) (by decide)⟩

/-! ## Claim C5: what a step does and does not do to the dragged node -/

/-- C5 counterexample.  In a two-node graph with node 0 dragged (starting
from zero velocity), one `applyForces` step leaves node 0's velocity at
`(-144, -192)` — the claim that the dragged node's velocity fields are not
modified by the step is false (repulsion accumulates into them). -/
theorem dragged_velocity_modified_cex :
    (nodeADrag.vx = 0 ∧ nodeADrag.vy = 0) ∧
    ((applyForces ratSqrt 1 [nodeADrag, nodeB0] [] (some 0))[0]?).map
        (fun n => (n.vx, n.vy)) = some ((-144 : ℚ), (-192 : ℚ)) ∧
    ¬ ((-144 : ℚ) = 0 ∧ (-192 : ℚ) = 0) := by
  refine ⟨⟨rfl, rfl⟩, by decide, by decide⟩

/-- C5 (corrected).  During a step the dragged node is excluded from the
centering/layer forces, damping, and position integration — its position
is never modified (first conjunct, for every graph) — but repulsion and
edge-attraction contributions are still added to its velocity (second
conjunct), and it still exerts forces on the other nodes: node 1's
resulting velocity differs from what the same step produces when the
dragged node is absent (third conjunct). -/
theorem dragged_node_step_effects :
    (∀ (sq : ℚ → ℚ) (alpha : ℚ) (nodes : List NodeS) (edges : List EdgeS) (i : Nat),
      ((applyForces sq alpha nodes edges (some i))[i]?).map (fun n => (n.x, n.y)) =
        (nodes[i]?).map fun n => (n.x, n.y)) ∧
    (((applyForces ratSqrt 1 [nodeADrag, nodeB0] [] (some 0))[0]?).map
        (fun n => (n.vx, n.vy)) = some ((-144 : ℚ), (-192 : ℚ))) ∧
    (((applyForces ratSqrt 1 [nodeADrag, nodeB0] [] (some 0))[1]?).map
        (fun n => n.vx) = some ((15033 : ℚ)/125) ∧
     ((applyForces ratSqrt 1 [nodeB0] [] none)[0]?).map
        (fun n => n.vx) = some ((633 : ℚ)/125) ∧
     (15033/125 : ℚ) ≠ 633/125) := by
  refine ⟨?_, by decide, by decide, by decide, by decide⟩
  intro sq alpha nodes edges i
  have hpos : posOf (List.foldl (attractionEdge sq alpha) (repulsionPhase sq alpha nodes) edges) =
      posOf nodes := by
    rw [posOf_attractionFold, posOf_repulsionPhase]
  have hidx : ((List.foldl (attractionEdge sq alpha) (repulsionPhase sq alpha nodes) edges)[i]?).map
      (fun n => (n.x, n.y)) = (nodes[i]?).map (fun n => (n.x, n.y)) := by
    rw [← getElem?_posOf, ← getElem?_posOf, hpos]
  have hif : (fun n : NodeS => if some i = some i then n else integrateNode sq alpha n) =
      fun n : NodeS => n := by
    funext n; simp
  rw [getElem?_applyForces, hif]
  simpa using hidx

/-! ## Claim C4: state at the end of a drag -/

/-- C4 counterexample.  At the moment the drag ends, node A's position is
the last dragged position `(0, 0)` (so it is not teleported back to its
pre-drag position `(10, 10)`), but its velocity is `(-3576/25, -4768/25)`,
not zero: the force step executed during the drag accumulated repulsion
into the dragged node's velocity and `mouseup` does not reset it. -/
theorem endDrag_velocity_not_zero_cex :
    (nodeA0.x = 10 ∧ nodeA0.y = 10) ∧
    (endDragNodes[0]?).map (fun n => (n.x, n.y, n.vx, n.vy)) =
        some ((0 : ℚ), (0 : ℚ), (-3576/25 : ℚ), (-4768/25 : ℚ)) ∧
    (-3576/25 : ℚ) ≠ 0 := by
  exact ⟨⟨rfl, rfl⟩, by decide, by decide⟩

/-- C4 (corrected).  `mouseup` clears the dragged/panning sub-state and
touches nothing else: the node list — positions and velocities alike — is
left exactly as it was, so the node keeps the last dragged position (set
by the final `mousemove`, second conjunct) and keeps whatever velocity the
forces accumulated during the drag (it is not reset to zero). -/
theorem endDrag_keeps_state (st : GraphState) (cx cy : ℚ) (r : Rect) (i : Nat)
    (hd : st.draggedNode = some i) :
    (∀ st' : GraphState, (mouseup st').nodes = st'.nodes ∧
      (mouseup st').draggedNode = none ∧ (mouseup st').isPanning = false) ∧
    ((mouseup (mousemove st cx cy r)).nodes[i]?).map (fun n => (n.x, n.y)) =
      (st.nodes[i]?).map fun _ =>
        ((cx - r.left) / r.width * st.viewBox.width + st.viewBox.x,
         (cy - r.top) / r.height * st.viewBox.height + st.viewBox.y) := by
  refine ⟨fun st' => ⟨rfl, rfl, rfl⟩, ?_⟩
  show ((mousemove st cx cy r).nodes[i]?).map _ = _
  unfold mousemove
  rw [hd]
  simp only []
  rw [getElem?_updAt_self]
  cases st.nodes[i]? <;> simp

theorem endDrag_keeps_state_witness :
    (mousedownNode dragState0 "A").draggedNode = some 0 ∧
    ((∀ st' : GraphState, (mouseup st').nodes = st'.nodes ∧
        (mouseup st').draggedNode = none ∧ (mouseup st').isPanning = false) ∧
      ((mouseup (mousemove (mousedownNode dragState0 "A") 500 400 dragRect)).nodes[0]?).map
          (fun n => (n.x, n.y)) =
        ((mousedownNode dragState0 "A").nodes[0]?).map fun _ =>
          ((500 - dragRect.left) / dragRect.width *
              (mousedownNode dragState0 "A").viewBox.width +
              (mousedownNode dragState0 "A").viewBox.x,
           (400 - dragRect.top) / dragRect.height *
              (mousedownNode dragState0 "A").viewBox.height +
              (mousedownNode dragState0 "A").viewBox.y)) :=
  ⟨by decide, endDrag_keeps_state (mousedownNode dragState0 "A") 500 400 dragRect 0 (by decide)⟩

/-! ## Claim C6: the simulation terminates -/

/-- C6 (confirmed).  Starting the simulation runs at most `maxSteps = 150`
force steps: the step counter never exceeds 150, after 151 scheduled ticks
the engine is Idle (`simulationRunning = false`) — so it never runs
indefinitely — and after `destroy` a scheduled tick changes nothing at all
(no further step executes). -/
theorem simulation_terminates (sq : ℚ → ℚ) (st : GraphState) (n : Nat)
    (hn : maxSteps + 1 ≤ n) :
    (runTicks sq n (startSimulation st)).steps ≤ maxSteps ∧
    (runTicks sq n (startSimulation st)).simulationRunning = false ∧
    (∀ st' : GraphState, simTick sq (destroy st') = destroy st') := by
  have hsteps0 : (startSimulation st).steps = 0 := rfl
  have hle : (runTicks sq n (startSimulation st)).steps ≤ maxSteps :=
    runTicks_steps_le sq n _ (by rw [hsteps0]; exact Nat.zero_le _)
  refine ⟨hle, ?_, ?_⟩
  · by_contra hrun
    have hb : (runTicks sq n (startSimulation st)).simulationRunning = true := by
      cases hb2 : (runTicks sq n (startSimulation st)).simulationRunning with
      | false => exact absurd hb2 hrun
      | true => rfl
    have := runTicks_running_steps sq n _ hb
    rw [hsteps0] at this
    omega
  · intro st'
    have hfalse : (destroy st').simulationRunning = false := rfl
    unfold simTick
    rw [if_pos (Or.inl (by rw [hfalse]; exact Bool.false_ne_true))]
    cases st'
    rfl

theorem simulation_terminates_witness :
    maxSteps + 1 ≤ 151 ∧
    (runTicks ratSqrt 151 (startSimulation baseState)).simulationRunning = false :=
  ⟨by decide, (simulation_terminates ratSqrt baseState 151 (by decide)).2.1⟩

/-! ## Claim C8: what zoom actually does -/

/-- C8 counterexample.  Two `zoomIn` calls shrink the viewBox width
1000 → 900 → 800, which is not multiplication by a fixed factor
(800·1000 ≠ 900·900); and starting from a panned viewport, the model point
under the center of the SVG jumps from 500 to 0 — `zoomIn` recenters the
viewBox on the model origin unconditionally instead of anchoring the
model point under the pointer (it takes no pointer position at all). -/
theorem zoom_not_pointer_anchored_cex :
    ((zoomInOp baseState).viewBox.width = 900 ∧
     (zoomInOp (zoomInOp baseState)).viewBox.width = 800 ∧
     (800 : ℚ) * 1000 ≠ 900 * 900) ∧
    (1/2 * pannedState.viewBox.width + pannedState.viewBox.x = 500 ∧
     1/2 * (zoomInOp pannedState).viewBox.width + (zoomInOp pannedState).viewBox.x = 0 ∧
     (500 : ℚ) ≠ 0) := by
  refine ⟨⟨by decide, by decide, by decide⟩, by decide, by decide, by decide⟩

/-- C8 (corrected).  `zoomIn`/`zoomOut` change the zoom scalar by a fixed
additive step 0.1 (each clamped on its own side), which keeps the scalar
inside `[0.5, 2]` whenever it starts there; the viewBox is set to
`1000·zoom × 800·zoom` and recentered on the model origin
(`x = -width/2`, `y = -height/2`), discarding any previous pan — zoom is a
rescale about the model origin, not anchored under the pointer. -/
theorem zoom_additive_clamped_centered (st : GraphState)
    (h1 : 0.5 ≤ st.zoom) (h2 : st.zoom ≤ 2) :
    ((zoomInOp st).zoom = max 0.5 (st.zoom - 0.1) ∧
     (zoomOutOp st).zoom = min 2 (st.zoom + 0.1)) ∧
    (0.5 ≤ (zoomInOp st).zoom ∧ (zoomInOp st).zoom ≤ 2 ∧
     0.5 ≤ (zoomOutOp st).zoom ∧ (zoomOutOp st).zoom ≤ 2) ∧
    ((zoomInOp st).viewBox.width = 1000 * (zoomInOp st).zoom ∧
     (zoomInOp st).viewBox.height = 800 * (zoomInOp st).zoom ∧
     (zoomInOp st).viewBox.x = -(zoomInOp st).viewBox.width / 2 ∧
     (zoomInOp st).viewBox.y = -(zoomInOp st).viewBox.height / 2 ∧
     (zoomOutOp st).viewBox.width = 1000 * (zoomOutOp st).zoom ∧
     (zoomOutOp st).viewBox.height = 800 * (zoomOutOp st).zoom ∧
     (zoomOutOp st).viewBox.x = -(zoomOutOp st).viewBox.width / 2 ∧
     (zoomOutOp st).viewBox.y = -(zoomOutOp st).viewBox.height / 2) := by
  refine ⟨⟨rfl, rfl⟩, ⟨?_, ?_, ?_, ?_⟩, rfl, rfl, rfl, rfl, rfl, rfl, rfl, rfl⟩
  · exact le_max_left _ _
  · exact max_le (by norm_num) (by linarith)
  · exact le_min (by norm_num) (by linarith)
  · exact min_le_left _ _

theorem zoom_additive_clamped_centered_witness :
    ((0.5 : ℚ) ≤ baseState.zoom ∧ baseState.zoom ≤ 2) ∧
    (0.5 ≤ (zoomInOp baseState).zoom ∧ (zoomInOp baseState).zoom ≤ 2 ∧
     0.5 ≤ (zoomOutOp baseState).zoom ∧ (zoomOutOp baseState).zoom ≤ 2) :=
  ⟨⟨by norm_num [baseState], by norm_num [baseState]⟩,
    (zoom_additive_clamped_centered baseState (by norm_num [baseState])
      (by norm_num [baseState])).2.1⟩

/-! ## Claim C3: edge ingestion performs no referential validation -/

/-- C3 counterexample.  `parseData`'s edge ingestion maps the relationship
record whose target id `"ZZZ"` names no node to an ordinary edge — it
succeeds instead of failing with an `InvalidReferenceError`, and the
dangling edge is retained in the edge set. -/
theorem parseEdges_accepts_dangling_cex :
    parseEdges [danglingRel] = [danglingEdge] ∧
    danglingEdge.target = "ZZZ" ∧
    (∀ n ∈ [nodeADrag], n.id ≠ "ZZZ") := by
  refine ⟨rfl, rfl, by decide⟩

/-- C3 (corrected).  Edge ingestion cannot fail and performs no
referential check: every relationship record is mapped to exactly one edge
(first conjunct), including the concrete dangling one (second conjunct);
dangling edges are inert downstream — the attraction pass whose id lookup
fails leaves the node state untouched, and `renderEdges` creates no line
for them. -/
theorem parseEdges_no_validation (sq : ℚ → ℚ) (alpha : ℚ) (nodes : List NodeS)
    (e : EdgeS) (rest : List EdgeS) (rels : List RelRecord)
    (hIdx : nodes.findIdx? (fun n => n.id == e.source) = none ∨
            nodes.findIdx? (fun n => n.id == e.target) = none)
    (hFind : nodes.find? (fun n => n.id == e.source) = none ∨
             nodes.find? (fun n => n.id == e.target) = none) :
    (parseEdges rels).length = rels.length ∧
    parseEdges [danglingRel] = [danglingEdge] ∧
    attractionEdge sq alpha nodes e = nodes ∧
    renderEdges nodes (e :: rest) = renderEdges nodes rest := by
  refine ⟨List.length_map _ _, rfl, ?_, ?_⟩
  · rcases hIdx with h | h
    · cases ht : nodes.findIdx? (fun n => n.id == e.target) <;>
        simp [attractionEdge, h, ht]
    · cases hs : nodes.findIdx? (fun n => n.id == e.source) <;>
        simp [attractionEdge, h, hs]
  · rcases hFind with h | h
    · cases ht : nodes.find? (fun n => n.id == e.target) <;>
        simp [renderEdges, List.filterMap_cons, h, ht]
    · cases hs : nodes.find? (fun n => n.id == e.source) <;>
        simp [renderEdges, List.filterMap_cons, h, hs]

theorem parseEdges_no_validation_witness :
    (List.findIdx? (fun n => n.id == danglingEdge.target) [nodeADrag] = none) ∧
    (attractionEdge ratSqrt 1 [nodeADrag] danglingEdge = [nodeADrag] ∧
     renderEdges [nodeADrag] [danglingEdge] = renderEdges [nodeADrag] []) :=
  ⟨by decide,
    ⟨(parseEdges_no_validation ratSqrt 1 [nodeADrag] danglingEdge [] []
        (Or.inr (by decide)) (Or.inr (by decide))).2.2.1,
     (parseEdges_no_validation ratSqrt 1 [nodeADrag] danglingEdge [] []
        (Or.inr (by decide)) (Or.inr (by decide))).2.2.2⟩⟩

/-! ## Claim C10: a self-path is never displayed -/

/-- C10 (confirmed).  For any node id present in the graph,
`highlightPath(a, a)` returns `false` and leaves the display untouched —
even though `findShortestPath(a, a)` returns the valid one-element path
`[a]`, paths shorter than two nodes are rejected before any styling
mutation happens. -/
theorem highlightPath_self_noop (nodes : List NodeS) (edges : List EdgeS)
    (disp : DisplayState) (a : String) (_h : ∃ n ∈ nodes, n.id = a) :
    highlightPath nodes edges disp a a = (false, disp) ∧
    findShortestPath edges a a = some [a] := by
  have hf : findShortestPath edges a a = some [a] := by simp [findShortestPath]
  refine ⟨?_, hf⟩
  unfold highlightPath
  rw [hf]
  simp

theorem highlightPath_self_noop_witness :
    (∃ n ∈ [nodeADrag], n.id = "A") ∧
    (highlightPath [nodeADrag] [] emptyDisp "A" "A" = (false, emptyDisp) ∧
     findShortestPath [] "A" "A" = some ["A"]) :=
  ⟨⟨nodeADrag, by decide, rfl⟩,
    highlightPath_self_noop [nodeADrag] [] emptyDisp "A" ⟨nodeADrag, by decide, rfl⟩⟩

/-! ## Claim C2: highlight followed by clear does not restore the display -/

/-- C2 (code bug).  `highlightPath` followed immediately by
`clearPathHighlight` does not restore the render-time display state.  The
Strong edge comes back with Medium styling (stroke `#94a3b8`, width 2
instead of `#475569`, width 3) because `clearPathHighlight` reads
`line.dataset.strength`, which no code ever writes, and falls back to
`'Medium'`.  On the node side the loops restyle whatever circle
`querySelector('circle')` returns: node A is ring-fronted (layer 1), so
its layer ring goes from its render styling `#e2e8f0`/1 to the main
circle's base styling `#fff`/2 while its untouched main circle keeps the
drop shadow; the ringless node D has its main circle found, which keeps
its base stroke but loses its drop-shadow filter (`removeAttribute`
instead of restore). -/
theorem highlight_clear_roundtrip_bug :
    (highlightPath roundNodes [strongEdge] roundDisp0 "A" "B").1 = true ∧
    (List.lookup "e1" roundDisp0.edgeLines).map (fun l => (l.stroke, l.strokeWidth)) =
      some ("#475569", (3 : ℚ)) ∧
    (List.lookup "e1" roundDisp2.edgeLines).map (fun l => (l.stroke, l.strokeWidth)) =
      some ("#94a3b8", (2 : ℚ)) ∧
    List.lookup "A" roundDisp0.nodeCircles =
      some [{ stroke := "#e2e8f0", strokeWidth := 1, filter := none },
            { stroke := "#fff", strokeWidth := 2, filter := some "shadow" }] ∧
    List.lookup "A" roundDisp2.nodeCircles =
      some [{ stroke := "#fff", strokeWidth := 2, filter := none },
            { stroke := "#fff", strokeWidth := 2, filter := some "shadow" }] ∧
    List.lookup "D" roundDisp0.nodeCircles =
      some [{ stroke := "#fff", strokeWidth := 2, filter := some "shadow" }] ∧
    List.lookup "D" roundDisp2.nodeCircles =
      some [{ stroke := "#fff", strokeWidth := 2, filter := none }] ∧
    roundDisp2 ≠ roundDisp0 := by
  refine ⟨by decide, by decide, by decide, by decide, by decide, by decide, by decide,
    by decide⟩

/-! ## Claim C7: what highlightPath does to non-path elements -/

/-- C7 counterexample.  After a successful `highlightPath("A","B")`, the
line of the non-path edge `e2` is byte-for-byte identical to its
render-time state (same classes, stroke, width, opacity, no animation):
nothing marks it — or any other non-path element — as faded. -/
theorem highlightPath_no_fade_cex :
    (highlightPath c7Nodes c7Edges c7Disp0 "A" "B").1 = true ∧
    List.lookup "e2" (highlightPath c7Nodes c7Edges c7Disp0 "A" "B").2.edgeLines =
      List.lookup "e2" c7Disp0.edgeLines ∧
    (List.lookup "e2" c7Disp0.edgeLines).map (fun l => l.classes) =
      some ["edge-line"] := by
  refine ⟨by decide, by decide, by decide⟩

theorem clearLine_not_highlight (l : LineAttrs) :
    "path-highlight" ∉ (clearLine l).classes := by
  unfold clearLine
  by_cases h : "path-highlight" ∈ l.classes
  · rw [if_pos h]
    intro hmem
    simp [List.mem_filter] at hmem
  · rw [if_neg h]
    exact h

theorem clearLine_of_not_highlight (l : LineAttrs)
    (h : "path-highlight" ∉ l.classes) : clearLine l = l := by
  unfold clearLine
  rw [if_neg h]

theorem updFirst_getElem? {α : Type} (key : String) (f : α → α) :
    ∀ (l : List (String × α)) (i : Nat),
      (updFirst key f l)[i]? = l[i]? ∨
      ∃ v, l[i]? = some (key, v) ∧ (updFirst key f l)[i]? = some (key, f v) := by
  intro l
  induction l with
  | nil => intro i; left; rfl
  | cons q rest ih =>
    intro i
    obtain ⟨k, v⟩ := q
    by_cases hk : (k == key) = true
    · have hk2 : k = key := by simpa using hk
      subst hk2
      cases i with
      | zero => right; exact ⟨v, by simp, by simp [updFirst]⟩
      | succ j => left; simp [updFirst]
    · cases i with
      | zero => left; simp [updFirst, hk]
      | succ j =>
        have hstep : (updFirst key f ((k, v) :: rest))[j + 1]? =
            (updFirst key f rest)[j]? := by
          simp [updFirst, hk]
        rcases ih j with h | ⟨v2, hv1, hv2⟩
        · left; rw [hstep, h]; simp
        · right; exact ⟨v2, by simpa using hv1, by rw [hstep]; exact hv2⟩

theorem map_if_not_key {α : Type} (key : String) (f : α → α) :
    ∀ (l : List (String × α)), (∀ q ∈ l, q.1 ≠ key) →
      (l.map fun q => if q.1 = key then (q.1, f q.2) else q) = l := by
  intro l
  induction l with
  | nil => intro _; rfl
  | cons q rest ih =>
    intro h
    simp only [List.map_cons, if_neg (h q (List.mem_cons_self q rest))]
    rw [ih fun q2 hq2 => h q2 (List.mem_cons_of_mem q hq2)]

theorem updFirst_eq_map_nodup {α : Type} (key : String) (f : α → α) :
    ∀ (l : List (String × α)), (l.map Prod.fst).Nodup →
      updFirst key f l = l.map fun q => if q.1 = key then (q.1, f q.2) else q := by
  intro l
  induction l with
  | nil => intro _; rfl
  | cons q rest ih =>
    intro hnd
    obtain ⟨k, v⟩ := q
    rw [List.map_cons, List.nodup_cons] at hnd
    by_cases hk : k = key
    · subst hk
      have hrest : (rest.map fun q => if q.1 = k then (q.1, f q.2) else q) = rest := by
        refine map_if_not_key k f rest fun q2 hq2 hq2k => hnd.1 ?_
        exact List.mem_map.mpr ⟨q2, hq2, hq2k⟩
      simp [updFirst, hrest]
    · have hkb : (k == key) = false := by simpa using hk
      simp only [updFirst, hkb, Bool.false_eq_true, if_false, if_neg hk, List.map_cons]
      rw [ih hnd.2]

theorem keys_of_cond_map {α : Type} (g : String → α → α) (cond : String → Prop)
    [DecidablePred cond] (l : List (String × α)) :
    ((l.map fun q => if cond q.1 then (q.1, g q.1 q.2) else q).map Prod.fst) =
      l.map Prod.fst := by
  rw [List.map_map]
  refine List.map_congr_left fun q _ => ?_
  by_cases h : cond q.1 <;> simp [h]

theorem applyToFirstCircle_set_absorb (f : CircleAttrs → CircleAttrs)
    (l : List CircleAttrs) :
    applyToFirstCircle setCircleHighlight (applyToFirstCircle f l) =
      applyToFirstCircle setCircleHighlight l := by
  cases l <;> rfl

theorem highlightPathNodes_eq_map :
    ∀ (path : List String) (circles : List (String × List CircleAttrs)),
      (circles.map Prod.fst).Nodup →
      highlightPathNodes path circles =
        circles.map fun q =>
          if q.1 ∈ path then (q.1, applyToFirstCircle setCircleHighlight q.2) else q := by
  intro path
  induction path with
  | nil =>
    intro circles _
    show circles = _
    simp
  | cons a as ih =>
    intro circles hnd
    show highlightPathNodes as
      (updFirst a (applyToFirstCircle setCircleHighlight) circles) = _
    rw [updFirst_eq_map_nodup a (applyToFirstCircle setCircleHighlight) circles hnd]
    have hkeys : ((circles.map fun q =>
        if q.1 = a then (q.1, applyToFirstCircle setCircleHighlight q.2) else q).map
          Prod.fst) = circles.map Prod.fst :=
      keys_of_cond_map (fun _ c => applyToFirstCircle setCircleHighlight c)
        (fun k => k = a) circles
    rw [ih _ (by rw [hkeys]; exact hnd), List.map_map]
    refine List.map_congr_left fun q _ => ?_
    by_cases h1 : q.1 = a
    · by_cases h2 : q.1 ∈ as <;>
        simp [Function.comp, h1, h2, List.mem_cons, applyToFirstCircle_set_absorb]
    · by_cases h2 : q.1 ∈ as <;>
        simp [Function.comp, h1, h2, List.mem_cons]

theorem pathEdgeIds_cons_subset (edges : List EdgeS) (a b : String)
    (rest : List String) :
    pathEdgeIds edges (b :: rest) ⊆ pathEdgeIds edges (a :: b :: rest) := by
  intro x hx
  show x ∈ (match edges.find? (fun e =>
      (e.source == a && e.target == b) || (e.source == b && e.target == a)) with
    | some e => [e.id]
    | none => []) ++ pathEdgeIds edges (b :: rest)
  exact List.mem_append_right _ hx

theorem highlightPathEdges_not_path (edges : List EdgeS) :
    ∀ (p : List String) (lines : List (String × LineAttrs)) (i : Nat)
      (k : String) (l0 : LineAttrs),
      lines[i]? = some (k, l0) → k ∉ pathEdgeIds edges p →
      (highlightPathEdges edges p lines)[i]? = some (k, l0) := by
  intro p
  induction p with
  | nil => intro lines i k l0 h _; exact h
  | cons a as ih =>
    cases as with
    | nil => intro lines i k l0 h _; exact h
    | cons b rest =>
      intro lines i k l0 h hk
      show (highlightPathEdges edges (b :: rest)
        (highlightEdgeStep edges a b lines))[i]? = some (k, l0)
      have hk2 : k ∉ pathEdgeIds edges (b :: rest) :=
        fun hmem => hk (pathEdgeIds_cons_subset edges a b rest hmem)
      refine ih (highlightEdgeStep edges a b lines) i k l0 ?_ hk2
      unfold highlightEdgeStep
      cases hfind : edges.find? (fun e =>
          (e.source == a && e.target == b) || (e.source == b && e.target == a)) with
      | none => exact h
      | some e =>
        have hid : e.id ∈ pathEdgeIds edges (a :: b :: rest) := by
          show e.id ∈ (match edges.find? (fun e =>
              (e.source == a && e.target == b) || (e.source == b && e.target == a)) with
            | some e => [e.id]
            | none => []) ++ pathEdgeIds edges (b :: rest)
          rw [hfind]
          exact List.mem_append_left _ (List.mem_singleton.mpr rfl)
        rcases updFirst_getElem? e.id setLineHighlight lines i with h2 | ⟨v, hv1, _⟩
        · rw [h2]; exact h
        · rw [hv1] at h
          have h2 : e.id = k := (Prod.ext_iff.mp (Option.some.inj h)).1
          exact absurd (h2 ▸ hid) hk

theorem highlightPathEdges_highlight_mem (edges : List EdgeS) :
    ∀ (p : List String) (S : List String), pathEdgeIds edges p ⊆ S →
      ∀ (lines : List (String × LineAttrs)),
        (∀ (i : Nat) (k : String) (l0 : LineAttrs),
          lines[i]? = some (k, l0) → "path-highlight" ∈ l0.classes → k ∈ S) →
        ∀ (i : Nat) (k : String) (l2 : LineAttrs),
          (highlightPathEdges edges p lines)[i]? = some (k, l2) →
          "path-highlight" ∈ l2.classes → k ∈ S := by
  intro p
  induction p with
  | nil => intro S _ lines hinv i k l2 h hcls; exact hinv i k l2 h hcls
  | cons a as ih =>
    cases as with
    | nil => intro S _ lines hinv i k l2 h hcls; exact hinv i k l2 h hcls
    | cons b rest =>
      intro S hsub lines hinv i k l2 h hcls
      have hsub2 : pathEdgeIds edges (b :: rest) ⊆ S :=
        fun x hx => hsub (pathEdgeIds_cons_subset edges a b rest hx)
      refine ih S hsub2 (highlightEdgeStep edges a b lines) ?_ i k l2 h hcls
      intro j k0 l0 hj hcls0
      revert hj
      unfold highlightEdgeStep
      cases hfind : edges.find? (fun e =>
          (e.source == a && e.target == b) || (e.source == b && e.target == a)) with
      | none => intro hj; exact hinv j k0 l0 hj hcls0
      | some e =>
        intro hj
        rcases updFirst_getElem? e.id setLineHighlight lines j with h2 | ⟨v, hv1, hv2⟩
        · rw [h2] at hj; exact hinv j k0 l0 hj hcls0
        · rw [hv2] at hj
          have hk0 : e.id = k0 := (Prod.ext_iff.mp (Option.some.inj hj)).1
          refine hsub ?_
          rw [← hk0]
          show e.id ∈ (match edges.find? (fun e =>
              (e.source == a && e.target == b) || (e.source == b && e.target == a)) with
            | some e => [e.id]
            | none => []) ++ pathEdgeIds edges (b :: rest)
          rw [hfind]
          exact List.mem_append_left _ (List.mem_singleton.mpr rfl)

/-- C7 (corrected).  A successful `highlightPath(s, t)` call fades
nothing: an edge line whose id is not among the path's connecting edges is
merely passed through the clear step — and if it carried no previous
highlight it is left completely unchanged; after the call, the lines
carrying the `path-highlight` class are exactly along the new path (so a
second call fully replaces the previous highlight, with no carry-over of
highlight marks); and in every node group only the first `circle` element
(the layer/risk ring when one precedes the main circle, the main circle
otherwise) is touched: it is reset to the main circle's base style with
the filter removed, and then for the path's nodes — and only them — it
receives the glow highlight; all other circles of every group, including
the untouched main circles of ring-fronted nodes, keep their state. -/
theorem highlightPath_highlights_only_path (nodes : List NodeS)
    (edges : List EdgeS) (disp : DisplayState) (s t : String) (p : List String)
    (hfsp : findShortestPath edges s t = some p) (hlen : 2 ≤ p.length)
    (hnd : (disp.nodeCircles.map Prod.fst).Nodup) :
    (highlightPath nodes edges disp s t).1 = true ∧
    (∀ (i : Nat) (k : String) (l0 : LineAttrs),
      disp.edgeLines[i]? = some (k, l0) → k ∉ pathEdgeIds edges p →
      ((highlightPath nodes edges disp s t).2.edgeLines[i]? = some (k, clearLine l0) ∧
       ("path-highlight" ∉ l0.classes →
         (highlightPath nodes edges disp s t).2.edgeLines[i]? = some (k, l0)))) ∧
    (∀ (i : Nat) (k : String) (l2 : LineAttrs),
      (highlightPath nodes edges disp s t).2.edgeLines[i]? = some (k, l2) →
      "path-highlight" ∈ l2.classes → k ∈ pathEdgeIds edges p) ∧
    (highlightPath nodes edges disp s t).2.nodeCircles =
      disp.nodeCircles.map (fun q =>
        if q.1 ∈ p then (q.1, applyToFirstCircle setCircleHighlight q.2)
        else (q.1, applyToFirstCircle (clearCircle nodes q.1) q.2)) := by
  have hp2 : highlightPath nodes edges disp s t =
      (true,
        { edgeLines := highlightPathEdges edges p
            ((clearPathHighlight nodes disp).edgeLines)
          nodeCircles := highlightPathNodes p
            ((clearPathHighlight nodes disp).nodeCircles) }) := by
    unfold highlightPath
    rw [hfsp]
    simp only [if_neg (show ¬ p.length < 2 by omega)]
  rw [hp2]
  have hclear : (clearPathHighlight nodes disp).edgeLines =
      disp.edgeLines.map fun q => (q.1, clearLine q.2) := rfl
  have hclearN : (clearPathHighlight nodes disp).nodeCircles =
      disp.nodeCircles.map fun q =>
        (q.1, applyToFirstCircle (clearCircle nodes q.1) q.2) := rfl
  refine ⟨rfl, ?_, ?_, ?_⟩
  · intro i k l0 h hk
    have hentry : ((clearPathHighlight nodes disp).edgeLines)[i]? =
        some (k, clearLine l0) := by
      rw [hclear, List.getElem?_map, h]
      rfl
    have hmain := highlightPathEdges_not_path edges p _ i k (clearLine l0) hentry hk
    exact ⟨hmain, fun hncls => by rwa [clearLine_of_not_highlight l0 hncls] at hmain⟩
  · refine highlightPathEdges_highlight_mem edges p (pathEdgeIds edges p)
      (fun x hx => hx) _ ?_
    intro i k l0 h hcls
    rw [hclear, List.getElem?_map] at h
    cases h0 : disp.edgeLines[i]? with
    | none => rw [h0] at h; exact absurd h (by simp)
    | some q =>
      rw [h0] at h
      have : l0 = clearLine q.2 := by
        have := congrArg (fun o => (Option.map Prod.snd o).getD l0) h
        simpa using this.symm
      exact absurd hcls (this ▸ clearLine_not_highlight q.2)
  · show highlightPathNodes p (disp.nodeCircles.map fun q =>
        (q.1, applyToFirstCircle (clearCircle nodes q.1) q.2)) = _
    have hkeys : ((disp.nodeCircles.map fun q =>
        (q.1, applyToFirstCircle (clearCircle nodes q.1) q.2)).map Prod.fst) =
          disp.nodeCircles.map Prod.fst := by
      rw [List.map_map]
      exact List.map_congr_left fun q _ => rfl
    rw [highlightPathNodes_eq_map p _ (by rw [hkeys]; exact hnd), List.map_map]
    refine List.map_congr_left fun q _ => ?_
    by_cases h : q.1 ∈ p <;> simp [Function.comp, h, applyToFirstCircle_set_absorb]

/-! ## Claim C1: BFS correctness of findShortestPath -/

theorem mem_neighborsOf {edges : List EdgeS} {u v : String} :
    v ∈ neighborsOf edges u ↔ Adj edges u v := by
  unfold neighborsOf Adj
  simp only [List.mem_map, List.mem_filter, Bool.or_eq_true, beq_iff_eq]
  constructor
  · rintro ⟨e, ⟨he, hcond⟩, hv⟩
    by_cases hs : e.source = u
    · rw [if_pos (by simpa using hs)] at hv
      exact ⟨e, he, Or.inl ⟨hs, hv⟩⟩
    · rw [if_neg (by simpa using hs)] at hv
      rcases hcond with h | h
      · exact absurd h hs
      · exact ⟨e, he, Or.inr ⟨hv, h⟩⟩
  · rintro ⟨e, he, ⟨h1, h2⟩ | ⟨h1, h2⟩⟩
    · exact ⟨e, ⟨he, Or.inl h1⟩, by rw [if_pos (by simpa using h1)]; exact h2⟩
    · by_cases hs : e.source = u
      · refine ⟨e, ⟨he, Or.inl hs⟩, ?_⟩
        rw [if_pos (by simpa using hs), h2, ← h1, hs]
      · exact ⟨e, ⟨he, Or.inr h2⟩, by rw [if_neg (by simpa using hs)]; exact h1⟩

theorem neighbors_mem_univ {edges : List EdgeS} (startId : String) {u v : String}
    (h : v ∈ neighborsOf edges u) : v ∈ univFS edges startId := by
  unfold neighborsOf at h
  simp only [List.mem_map, List.mem_filter] at h
  obtain ⟨e, ⟨he, _⟩, hv⟩ := h
  refine Finset.mem_insert_of_mem (Finset.mem_union.mpr ?_)
  by_cases hs : (e.source == u) = true
  · rw [if_pos hs] at hv
    exact Or.inr (List.mem_toFinset.mpr (List.mem_map.mpr ⟨e, he, hv⟩))
  · rw [if_neg hs] at hv
    exact Or.inl (List.mem_toFinset.mpr (List.mem_map.mpr ⟨e, he, hv⟩))

theorem reachIn_mono {edges : List EdgeS} {s : String} {m n : Nat} {v : String}
    (h : m ≤ n) : ReachIn edges s m v → ReachIn edges s n v := by
  induction h with
  | refl => exact id
  | step _ ih => exact fun r => Or.inl (ih r)

theorem walkFrom_nonempty {edges : List EdgeS} {a b : String} {w : List String}
    (h : WalkFrom edges a b w) : w ≠ [] := by
  intro hnil
  rw [hnil] at h
  exact Option.noConfusion h.2.1

theorem getLastD_concat {l : List String} {a d : String} :
    (l ++ [a]).getLastD d = a := by
  rw [List.getLastD_eq_getLast?, List.getLast?_concat]
  rfl

theorem head?_append_left {l : List String} (l2 : List String) (h : l ≠ []) :
    (l ++ l2).head? = l.head? := by
  cases l with
  | nil => exact absurd rfl h
  | cons x xs => rfl

theorem walkFrom_append {edges : List EdgeS} {a b c : String} {w : List String}
    (h : WalkFrom edges a b w) (hadj : Adj edges b c) :
    WalkFrom edges a c (w ++ [c]) := by
  obtain ⟨hchain, hhead, hlast⟩ := h
  refine ⟨?_, ?_, List.getLast?_concat _⟩
  · rw [List.chain'_append]
    refine ⟨hchain, List.chain'_singleton c, ?_⟩
    intro x hx y hy
    rw [hlast] at hx
    simp only [Option.mem_def, Option.some.injEq] at hx
    simp only [List.head?_cons, Option.mem_def, Option.some.injEq] at hy
    subst hx
    subst hy
    exact hadj
  · rw [head?_append_left _ (walkFrom_nonempty ⟨hchain, hhead, hlast⟩)]
    exact hhead

theorem walkFrom_reachIn {edges : List EdgeS} {a : String} {w : List String} :
    ∀ {b : String}, WalkFrom edges a b w → ReachIn edges a (w.length - 1) b := by
  induction w using List.reverseRecOn with
  | nil => intro b h; exact absurd (walkFrom_nonempty h) (by simp)
  | append_singleton ys y ih =>
    intro b h
    obtain ⟨hchain, hhead, hlast⟩ := h
    have hyb : y = b := by
      rw [List.getLast?_concat] at hlast
      exact Option.some.inj hlast
    subst hyb
    by_cases hysne : ys = []
    · subst hysne
      have hay : y = a := by simpa using hhead
      subst hay
      show ReachIn edges y 0 y
      rfl
    · rw [List.chain'_append] at hchain
      obtain ⟨hch1, -, hlink⟩ := hchain
      obtain ⟨u, hu⟩ : ∃ u, ys.getLast? = some u := by
        cases h2 : ys.getLast? with
        | none => exact absurd (List.getLast?_eq_none_iff.mp h2) hysne
        | some u => exact ⟨u, rfl⟩
      have hwys : WalkFrom edges a u ys := by
        refine ⟨hch1, ?_, hu⟩
        rwa [head?_append_left _ hysne] at hhead
      have hadj : Adj edges u y := by
        refine hlink u ?_ y ?_
        · rw [hu]; rfl
        · rfl
      have hr := ih hwys
      have hlen1 : 1 ≤ ys.length := List.length_pos.mpr hysne
      have hstep : ReachIn edges a (ys.length - 1 + 1) y := Or.inr ⟨u, hr, hadj⟩
      have heq : ys.length - 1 + 1 = ys.length := by omega
      rw [heq] at hstep
      simpa using hstep

theorem reachIn_walkFrom {edges : List EdgeS} {s : String} :
    ∀ {n : Nat} {b : String}, ReachIn edges s n b →
      ∃ w, WalkFrom edges s b w ∧ w.length ≤ n + 1 := by
  intro n
  induction n with
  | zero =>
    intro b h
    have hb : b = s := h
    subst hb
    exact ⟨[b], ⟨List.chain'_singleton b, rfl, rfl⟩, by simp⟩
  | succ m ih =>
    intro b h
    rcases h with h | ⟨u, hu, hadj⟩
    · obtain ⟨w, hw, hlen⟩ := ih h
      exact ⟨w, hw, by omega⟩
    · obtain ⟨w, hw, hlen⟩ := ih hu
      refine ⟨w ++ [b], walkFrom_append hw hadj, ?_⟩
      simp only [List.length_append, List.length_singleton]
      omega

theorem scan_found (endId : String) (path : List String) :
    ∀ (ns : List String) (visited : Finset String) (queue : List (List String))
      (f : List String) (v2 : Finset String) (q2 : List (List String)),
      scanNeighbors endId path ns visited queue = (some f, v2, q2) →
      f = path ++ [endId] ∧ endId ∈ ns := by
  intro ns
  induction ns with
  | nil =>
    intro visited queue f v2 q2 h
    exact absurd h (by simp [scanNeighbors])
  | cons v vs ih =>
    intro visited queue f v2 q2 h
    unfold scanNeighbors at h
    by_cases hv : v = endId
    · rw [if_pos hv] at h
      obtain ⟨h1, -⟩ := Prod.mk.injEq .. ▸ h
      have hf : f = path ++ [v] := (Option.some.inj (congrArg Prod.fst h)).symm
      subst hv
      exact ⟨hf, List.mem_cons_self v vs⟩
    · rw [if_neg hv] at h
      by_cases hvis : v ∈ visited
      · rw [if_pos hvis] at h
        obtain ⟨hf, hmem⟩ := ih visited queue f v2 q2 h
        exact ⟨hf, List.mem_cons_of_mem v hmem⟩
      · rw [if_neg hvis] at h
        obtain ⟨hf, hmem⟩ := ih _ _ f v2 q2 h
        exact ⟨hf, List.mem_cons_of_mem v hmem⟩

theorem scan_none_spec (endId : String) (path : List String) :
    ∀ (ns : List String) (visited : Finset String) (queue : List (List String))
      (v2 : Finset String) (q2 : List (List String)),
      scanNeighbors endId path ns visited queue = (none, v2, q2) →
      (∀ v ∈ ns, v ≠ endId) ∧
      (∀ x, x ∈ v2 ↔ x ∈ visited ∨ x ∈ ns) ∧
      (∃ newPs, q2 = queue ++ newPs ∧
        ∀ pp ∈ newPs, ∃ v, v ∈ ns ∧ v ∉ visited ∧ pp = path ++ [v]) ∧
      (∀ v ∈ ns, v ∉ visited → (path ++ [v]) ∈ q2) := by
  intro ns
  induction ns with
  | nil =>
    intro visited queue v2 q2 h
    unfold scanNeighbors at h
    obtain ⟨-, h2, h3⟩ : (none : Option (List String)) = none ∧ visited = v2 ∧ queue = q2 := by
      refine ⟨rfl, ?_, ?_⟩
      · exact congrArg (fun t => t.2.1) h
      · exact congrArg (fun t => t.2.2) h
    subst h2
    subst h3
    exact ⟨by simp, fun x => by simp, ⟨[], by simp, by simp⟩, by simp⟩
  | cons v vs ih =>
    intro visited queue v2 q2 h
    unfold scanNeighbors at h
    by_cases hv : v = endId
    · rw [if_pos hv] at h
      exact absurd (congrArg Prod.fst h) (by simp)
    · rw [if_neg hv] at h
      by_cases hvis : v ∈ visited
      · rw [if_pos hvis] at h
        obtain ⟨h1, h2, ⟨newPs, hq, hnew⟩, h4⟩ := ih visited queue v2 q2 h
        refine ⟨?_, ?_, ⟨newPs, hq, fun pp hpp => ?_⟩, ?_⟩
        · intro x hx
          rcases List.mem_cons.mp hx with rfl | hx2
          · exact hv
          · exact h1 x hx2
        · intro x
          rw [h2 x]
          constructor
          · rintro (hx | hx)
            · exact Or.inl hx
            · exact Or.inr (List.mem_cons_of_mem v hx)
          · rintro (hx | hx)
            · exact Or.inl hx
            · rcases List.mem_cons.mp hx with rfl | hx2
              · exact Or.inl hvis
              · exact Or.inr hx2
        · obtain ⟨v3, hv3, hnv, he⟩ := hnew pp hpp
          exact ⟨v3, List.mem_cons_of_mem v hv3, hnv, he⟩
        · intro x hx hxv
          rcases List.mem_cons.mp hx with rfl | hx2
          · exact absurd hvis hxv
          · exact h4 x hx2 hxv
      · rw [if_neg hvis] at h
        obtain ⟨h1, h2, ⟨newPs, hq, hnew⟩, h4⟩ := ih _ _ v2 q2 h
        refine ⟨?_, ?_, ⟨[path ++ [v]] ++ newPs, ?_, ?_⟩, ?_⟩
        · intro x hx
          rcases List.mem_cons.mp hx with rfl | hx2
          · exact hv
          · exact h1 x hx2
        · intro x
          rw [h2 x]
          simp only [Finset.mem_insert, List.mem_cons]
          constructor
          · rintro (⟨rfl | hx⟩ | hx)
            · exact Or.inr (Or.inl rfl)
            · exact Or.inl hx
            · exact Or.inr (Or.inr hx)
          · rintro (hx | hx | hx)
            · exact Or.inl (Or.inr hx)
            · exact Or.inl (Or.inl hx)
            · exact Or.inr hx
        · rw [hq, List.append_assoc]
        · intro pp hpp
          rcases List.mem_append.mp hpp with hpp1 | hpp2
          · refine ⟨v, List.mem_cons_self v vs, hvis, ?_⟩
            exact (List.mem_singleton.mp hpp1)
          · obtain ⟨v3, hv3, hv3nv, hpp3⟩ := hnew pp hpp2
            refine ⟨v3, List.mem_cons_of_mem v hv3, fun hc => hv3nv ?_, hpp3⟩
            exact Finset.mem_insert_of_mem hc
        · intro x hx hxv
          rcases List.mem_cons.mp hx with rfl | hx2
          · rw [hq]
            exact List.mem_append_left _ (List.mem_append_right _ (List.mem_singleton.mpr rfl))
          · by_cases hxeq : x = v
            · subst hxeq
              rw [hq]
              exact List.mem_append_left _ (List.mem_append_right _ (List.mem_singleton.mpr rfl))
            · exact h4 x hx2 (fun hc => by
                rcases Finset.mem_insert.mp hc with h5 | h5
                · exact hxeq h5
                · exact hxv h5)

theorem scan_none_measure (endId : String) (path : List String) :
    ∀ (ns : List String) (visited : Finset String) (queue : List (List String))
      (v2 : Finset String) (q2 : List (List String)) (univ : Finset String),
      scanNeighbors endId path ns visited queue = (none, v2, q2) →
      (∀ v ∈ ns, v ∈ univ) →
      q2.length + 2 * (univ \ v2).card ≤ queue.length + 2 * (univ \ visited).card := by
  intro ns
  induction ns with
  | nil =>
    intro visited queue v2 q2 univ h _
    unfold scanNeighbors at h
    have h2 : visited = v2 := congrArg (fun t => t.2.1) h
    have h3 : queue = q2 := congrArg (fun t => t.2.2) h
    subst h2
    subst h3
    exact le_refl _
  | cons v vs ih =>
    intro visited queue v2 q2 univ h huniv
    unfold scanNeighbors at h
    by_cases hv : v = endId
    · rw [if_pos hv] at h
      exact absurd (congrArg Prod.fst h) (by simp)
    · rw [if_neg hv] at h
      by_cases hvis : v ∈ visited
      · rw [if_pos hvis] at h
        exact ih visited queue v2 q2 univ h fun x hx => huniv x (List.mem_cons_of_mem v hx)
      · rw [if_neg hvis] at h
        have hrec := ih _ _ v2 q2 univ h fun x hx => huniv x (List.mem_cons_of_mem v hx)
        have hvmem : v ∈ univ \ visited :=
          Finset.mem_sdiff.mpr ⟨huniv v (List.mem_cons_self v vs), hvis⟩
        have hcard : (univ \ insert v visited).card = (univ \ visited).card - 1 := by
          have hsd : univ \ insert v visited = (univ \ visited).erase v := by
            ext x
            simp only [Finset.mem_sdiff, Finset.mem_insert, Finset.mem_erase]
            tauto
          rw [hsd, Finset.card_erase_of_mem hvmem]
        have hpos : 1 ≤ (univ \ visited).card := Finset.card_pos.mpr ⟨v, hvmem⟩
        have hlen : (queue ++ [path ++ [v]]).length = queue.length + 1 := by simp
        rw [hlen, hcard] at hrec
        omega

theorem inv_visited_of_reach {edges : List EdgeS} {s e : String}
    {queue : List (List String)} {visited : Finset String}
    (inv : BfsInv edges s e queue visited) :
    ∀ (n : Nat) (v : String), ReachIn edges s n v →
      (∀ p ∈ queue, n + 2 ≤ p.length) → v ∈ visited := by
  intro n
  induction n with
  | zero =>
    intro v hv _
    have : v = s := hv
    subst this
    exact inv.start_vis
  | succ m ih =>
    intro v hv hlen
    rcases hv with hv | ⟨u, hu, hadj⟩
    · exact ih v hv fun p hp => by have := hlen p hp; omega
    · have hu_vis : u ∈ visited := ih u hu fun p hp => by have := hlen p hp; omega
      rcases inv.expanded u hu_vis with ⟨q, hq, hlast⟩ | ⟨hclosed, -⟩
      · exact absurd (hlast ▸ hu) (inv.shortest q hq m (by have := hlen q hq; omega))
      · exact hclosed v hadj

theorem inv_no_short_end {edges : List EdgeS} {s e : String}
    {queue : List (List String)} {visited : Finset String}
    (inv : BfsInv edges s e queue visited) :
    ∀ (n : Nat), (∀ p ∈ queue, n + 1 ≤ p.length) → ¬ ReachIn edges s n e := by
  intro n
  induction n with
  | zero =>
    intro _ hv
    have : e = s := hv
    exact inv.end_not_vis (this ▸ inv.start_vis)
  | succ m ih =>
    intro hlen hv
    rcases hv with hv | ⟨u, hu, hadj⟩
    · exact ih (fun p hp => by have := hlen p hp; omega) hv
    · have hu_vis : u ∈ visited :=
        inv_visited_of_reach inv m u hu fun p hp => by have := hlen p hp; omega
      rcases inv.expanded u hu_vis with ⟨q, hq, hlast⟩ | ⟨-, hnadj⟩
      · exact inv.shortest q hq m (by have := hlen q hq; omega) (hlast ▸ hu)
      · exact hnadj hadj

theorem inv_empty_no_walk {edges : List EdgeS} {s e : String}
    {visited : Finset String} (inv : BfsInv edges s e [] visited) :
    ∀ w, ¬ WalkFrom edges s e w := by
  have hreach : ∀ (n : Nat) (v : String), ReachIn edges s n v → v ∈ visited := by
    intro n
    induction n with
    | zero =>
      intro v hv
      have : v = s := hv
      subst this
      exact inv.start_vis
    | succ m ih =>
      intro v hv
      rcases hv with hv | ⟨u, hu, hadj⟩
      · exact ih v hv
      · have hu_vis : u ∈ visited := ih u hu
        rcases inv.expanded u hu_vis with ⟨q, hq, -⟩ | ⟨hclosed, -⟩
        · exact absurd hq (List.not_mem_nil q)
        · exact hclosed v hadj
  intro w hw
  exact inv.end_not_vis (hreach _ _ (walkFrom_reachIn hw))

theorem inv_init {edges : List EdgeS} {s e : String} (hne : s ≠ e) :
    BfsInv edges s e [[s]] {s} where
  start_vis := Finset.mem_singleton_self s
  end_not_vis := fun h => hne (Finset.mem_singleton.mp h).symm
  vis_univ := fun v hv => by
    rw [Finset.mem_singleton.mp hv]
    exact Finset.mem_insert_self s _
  walks := fun p hp => by
    rw [List.mem_singleton.mp hp]
    exact ⟨List.cons_ne_nil s [], List.chain'_singleton s, rfl, rfl⟩
  elems_vis := fun p hp x hx => by
    rw [List.mem_singleton.mp hp] at hx
    rw [Finset.mem_singleton]
    exact (List.mem_singleton.mp hx)
  sorted := by simp
  window := fun p hp q hq => by
    rw [List.mem_singleton.mp hp, List.mem_singleton.mp hq]
    omega
  shortest := fun p hp n hn => by
    rw [List.mem_singleton.mp hp] at hn
    exact absurd hn (by simp)
  expanded := fun u hu =>
    Or.inl ⟨[s], List.mem_singleton.mpr rfl, by
      rw [Finset.mem_singleton.mp hu]; rfl⟩

theorem pairwise_le_const (c : Nat) :
    ∀ (l : List Nat), (∀ x ∈ l, x = c) → l.Pairwise (· ≤ ·) := by
  intro l
  induction l with
  | nil => intro _; exact List.Pairwise.nil
  | cons x xs ih =>
    intro h
    refine List.Pairwise.cons ?_ (ih fun y hy => h y (List.mem_cons_of_mem x hy))
    intro y hy
    rw [h x (List.mem_cons_self x xs), h y (List.mem_cons_of_mem x hy)]

theorem inv_front_min {edges : List EdgeS} {s e : String} {path : List String}
    {rest : List (List String)} {visited : Finset String}
    (hinv : BfsInv edges s e (path :: rest) visited) :
    ∀ p ∈ path :: rest, path.length ≤ p.length := by
  intro p hp
  rcases List.mem_cons.mp hp with rfl | hp2
  · exact le_refl _
  · have hs := hinv.sorted
    rw [List.map_cons, List.pairwise_cons] at hs
    exact hs.1 p.length (List.mem_map.mpr ⟨p, hp2, rfl⟩)

theorem inv_step {edges : List EdgeS} {s e : String}
    {path : List String} {rest : List (List String)}
    {visited v2 : Finset String} {q2 : List (List String)}
    (hinv : BfsInv edges s e (path :: rest) visited)
    (hscan : scanNeighbors e path (neighborsOf edges (path.getLastD ""))
      visited rest = (none, v2, q2)) :
    BfsInv edges s e q2 v2 := by
  obtain ⟨hpne, hpwalk⟩ := hinv.walks path (List.mem_cons_self path rest)
  obtain ⟨hnsne, hviff, ⟨newPs, hq2eq, hnewPs⟩, hcover⟩ :=
    scan_none_spec e path _ visited rest v2 q2 hscan
  have hlow := inv_front_min hinv
  have hhigh : ∀ p ∈ path :: rest, p.length ≤ path.length + 1 :=
    fun p hp => hinv.window p hp path (List.mem_cons_self path rest)
  have hq2cases : ∀ p ∈ q2, p ∈ rest ∨
      ∃ v, v ∈ neighborsOf edges (path.getLastD "") ∧ v ∉ visited ∧
        p = path ++ [v] := by
    intro p hp
    rw [hq2eq] at hp
    rcases List.mem_append.mp hp with hp1 | hp2
    · exact Or.inl hp1
    · exact Or.inr (hnewPs p hp2)
  have hlow2 : ∀ p ∈ q2, path.length ≤ p.length := by
    intro p hp
    rcases hq2cases p hp with hp1 | ⟨v, -, -, rfl⟩
    · exact hlow p (List.mem_cons_of_mem _ hp1)
    · simp only [List.length_append, List.length_singleton]
      omega
  have hhigh2 : ∀ p ∈ q2, p.length ≤ path.length + 1 := by
    intro p hp
    rcases hq2cases p hp with hp1 | ⟨v, -, -, rfl⟩
    · exact hhigh p (List.mem_cons_of_mem _ hp1)
    · simp [List.length_append]
  refine ⟨?_, ?_, ?_, ?_, ?_, ?_, ?_, ?_, ?_⟩
  · exact (hviff s).mpr (Or.inl hinv.start_vis)
  · intro h
    rcases (hviff e).mp h with h2 | h2
    · exact hinv.end_not_vis h2
    · exact hnsne e h2 rfl
  · intro x hx
    rcases (hviff x).mp hx with h2 | h2
    · exact hinv.vis_univ x h2
    · exact neighbors_mem_univ s h2
  · intro p hp
    rcases hq2cases p hp with hp1 | ⟨v, hvns, -, rfl⟩
    · exact hinv.walks p (List.mem_cons_of_mem _ hp1)
    · refine ⟨by simp, ?_⟩
      rw [getLastD_concat]
      exact walkFrom_append hpwalk (mem_neighborsOf.mp hvns)
  · intro p hp x hx
    rcases hq2cases p hp with hp1 | ⟨v, hvns, -, rfl⟩
    · exact (hviff x).mpr (Or.inl (hinv.elems_vis p (List.mem_cons_of_mem _ hp1) x hx))
    · rcases List.mem_append.mp hx with hx1 | hx2
      · exact (hviff x).mpr
          (Or.inl (hinv.elems_vis path (List.mem_cons_self path rest) x hx1))
      · rw [List.mem_singleton.mp hx2]
        exact (hviff v).mpr (Or.inr hvns)
  · rw [hq2eq, List.map_append, List.pairwise_append]
    refine ⟨?_, ?_, ?_⟩
    · have hs := hinv.sorted
      rw [List.map_cons, List.pairwise_cons] at hs
      exact hs.2
    · refine pairwise_le_const (path.length + 1) _ ?_
      intro x hx
      obtain ⟨pp, hpp, rfl⟩ := List.mem_map.mp hx
      obtain ⟨v, -, -, rfl⟩ := hnewPs pp hpp
      simp [List.length_append]
    · intro x hx y hy
      obtain ⟨r, hr, rfl⟩ := List.mem_map.mp hx
      obtain ⟨pp, hpp, rfl⟩ := List.mem_map.mp hy
      obtain ⟨v, -, -, rfl⟩ := hnewPs pp hpp
      have h1 := hhigh r (List.mem_cons_of_mem _ hr)
      simp only [List.length_append, List.length_singleton]
      omega
  · intro p hp q hq
    have h1 := hhigh2 p hp
    have h2 := hlow2 q hq
    omega
  · intro p hp n hn
    rcases hq2cases p hp with hp1 | ⟨v, hvns, hvnv, rfl⟩
    · exact hinv.shortest p (List.mem_cons_of_mem _ hp1) n hn
    · rw [getLastD_concat]
      intro hreach
      have hn2 : n + 2 ≤ path.length + 1 := by
        simpa [List.length_append] using hn
      by_cases hcase : n + 2 ≤ path.length
      · exact hvnv (inv_visited_of_reach hinv n v hreach
          fun p' hp' => le_trans hcase (hlow p' hp'))
      · have hpl : path.length = n + 1 := by omega
        cases n with
        | zero =>
          have hv : v = s := hreach
          exact hvnv (hv ▸ hinv.start_vis)
        | succ m =>
          rcases hreach with hr | ⟨u, hu, hadj⟩
          · exact hvnv (inv_visited_of_reach hinv m v hr
              fun p' hp' => by have := hlow p' hp'; omega)
          · have hu_vis : u ∈ visited := inv_visited_of_reach hinv m u hu
              fun p' hp' => by have := hlow p' hp'; omega
            rcases hinv.expanded u hu_vis with ⟨q', hq', hlast⟩ | ⟨hclosed, -⟩
            · exact hinv.shortest q' hq' m
                (by have := hlow q' hq'; omega) (hlast ▸ hu)
            · exact hvnv (hclosed v hadj)
  · intro u hu
    by_cases huvis : u ∈ visited
    · rcases hinv.expanded u huvis with ⟨p0, hp0, hlast⟩ | ⟨hcl, hnadj⟩
      · rcases List.mem_cons.mp hp0 with rfl | hp0r
        · refine Or.inr ⟨?_, ?_⟩
          · intro w hadj
            rw [← hlast] at hadj
            exact (hviff w).mpr (Or.inr (mem_neighborsOf.mpr hadj))
          · intro hadj
            rw [← hlast] at hadj
            exact hnsne e (mem_neighborsOf.mpr hadj) rfl
        · exact Or.inl ⟨p0, by rw [hq2eq]; exact List.mem_append_left _ hp0r, hlast⟩
      · exact Or.inr ⟨fun w h => (hviff w).mpr (Or.inl (hcl w h)), hnadj⟩
    · have huns := ((hviff u).mp hu).resolve_left huvis
      exact Or.inl ⟨path ++ [u], hcover u huns huvis, getLastD_concat⟩

theorem bfsLoop_correct (edges : List EdgeS) (s e : String) (_hne : s ≠ e) :
    ∀ (fuel : Nat) (queue : List (List String)) (visited : Finset String),
      BfsInv edges s e queue visited →
      queue.length + 2 * ((univFS edges s) \ visited).card < fuel →
      (∀ p, bfsLoop edges e fuel queue visited = some p →
          WalkFrom edges s e p ∧ ∀ q, WalkFrom edges s e q → p.length ≤ q.length) ∧
      (bfsLoop edges e fuel queue visited = none → ∀ q, ¬ WalkFrom edges s e q) := by
  intro fuel
  induction fuel with
  | zero => intro queue visited _ hfuel; exact absurd hfuel (Nat.not_lt_zero _)
  | succ fuel ih =>
    intro queue visited hinv hfuel
    cases queue with
    | nil =>
      exact ⟨fun p hp => absurd hp (by simp [bfsLoop]),
        fun _ q => inv_empty_no_walk hinv q⟩
    | cons path rest =>
      rcases hscan : scanNeighbors e path (neighborsOf edges (path.getLastD ""))
        visited rest with ⟨r, v2, q2⟩
      cases r with
      | some f =>
        have hres : bfsLoop edges e (fuel + 1) (path :: rest) visited = some f := by
          unfold bfsLoop
          rw [hscan]
        obtain ⟨hf, hmem⟩ := scan_found e path _ visited rest f v2 q2 hscan
        subst hf
        obtain ⟨hpne, hpwalk⟩ := hinv.walks path (List.mem_cons_self path rest)
        have hadj : Adj edges (path.getLastD "") e := mem_neighborsOf.mp hmem
        have hwres : WalkFrom edges s e (path ++ [e]) := walkFrom_append hpwalk hadj
        constructor
        · intro p hp
          rw [hres] at hp
          obtain rfl := Option.some.inj hp
          refine ⟨hwres, ?_⟩
          intro q hq
          have hple : 1 ≤ path.length := List.length_pos.mpr hpne
          have hnoshort : ¬ ReachIn edges s (path.length - 1) e :=
            inv_no_short_end hinv (path.length - 1)
              fun p' hp' => by have := inv_front_min hinv p' hp'; omega
          have hqreach : ReachIn edges s (q.length - 1) e := walkFrom_reachIn hq
          have hq1 : 1 ≤ q.length := List.length_pos.mpr (walkFrom_nonempty hq)
          by_contra hlt
          push_neg at hlt
          simp only [List.length_append, List.length_singleton] at hlt
          exact hnoshort (reachIn_mono (by omega) hqreach)
        · intro hnone
          rw [hres] at hnone
          exact absurd hnone (by simp)
      | none =>
        have hres : bfsLoop edges e (fuel + 1) (path :: rest) visited =
            bfsLoop edges e fuel q2 v2 := by
          conv_lhs => unfold bfsLoop
          rw [hscan]
        have hinv2 := inv_step hinv hscan
        have hmeas := scan_none_measure e path _ visited rest v2 q2 (univFS edges s)
          hscan fun v hv => neighbors_mem_univ s hv
        have hfuel2 : q2.length + 2 * ((univFS edges s) \ v2).card < fuel := by
          have h1 : (path :: rest).length = rest.length + 1 := by simp
          omega
        rw [hres]
        exact ih q2 v2 hinv2 hfuel2

/-- C1 (confirmed).  `findShortestPath` is a correct breadth-first search
over the undirected adjacency of the edge list: whenever it returns a
path, that path is an ordered walk from `startId` to `endId` of minimum
hop count among all connecting walks; whenever it returns null, no
connecting walk exists; `findShortestPath(a, a) = [a]`; and on the
concrete 5-node path graph A-B-C-D-E it returns `[A,B,C,D,E]` while on two
disconnected components it returns null. -/
theorem findShortestPath_min_hop :
    (∀ (edges : List EdgeS) (s t : String) (p : List String),
        findShortestPath edges s t = some p →
        WalkFrom edges s t p ∧ ∀ q, WalkFrom edges s t q → p.length ≤ q.length) ∧
    (∀ (edges : List EdgeS) (s t : String),
        findShortestPath edges s t = none → ∀ q, ¬ WalkFrom edges s t q) ∧
    (∀ (edges : List EdgeS) (a : String), findShortestPath edges a a = some [a]) ∧
    findShortestPath pathGraphEdges "A" "E" = some ["A", "B", "C", "D", "E"] ∧
    findShortestPath twoComponentsEdges "A" "C" = none := by
  have hmain : ∀ (edges : List EdgeS) (s t : String),
      (∀ p, findShortestPath edges s t = some p →
        WalkFrom edges s t p ∧ ∀ q, WalkFrom edges s t q → p.length ≤ q.length) ∧
      (findShortestPath edges s t = none → ∀ q, ¬ WalkFrom edges s t q) := by
    intro edges s t
    by_cases hst : s = t
    · subst hst
      constructor
      · intro p hp
        unfold findShortestPath at hp
        rw [if_pos rfl] at hp
        obtain rfl := Option.some.inj hp
        refine ⟨⟨List.chain'_singleton s, rfl, rfl⟩, ?_⟩
        intro q hq
        have := List.length_pos.mpr (walkFrom_nonempty hq)
        simpa using this
      · intro hnone
        unfold findShortestPath at hnone
        rw [if_pos rfl] at hnone
        exact absurd hnone (by simp)
    · have hcard : ((univFS edges s) \ {s}).card ≤ 2 * edges.length := by
        have hsub : (univFS edges s) \ {s} ⊆
            (edges.map EdgeS.source).toFinset ∪ (edges.map EdgeS.target).toFinset := by
          intro x hx
          obtain ⟨hx1, hx2⟩ := Finset.mem_sdiff.mp hx
          rcases Finset.mem_insert.mp hx1 with rfl | hx3
          · exact absurd (Finset.mem_singleton_self x) hx2
          · exact hx3
        have h0 := Finset.card_le_card hsub
        have hu := Finset.card_union_le (edges.map EdgeS.source).toFinset
          (edges.map EdgeS.target).toFinset
        have h1 := List.toFinset_card_le (edges.map EdgeS.source)
        have h2 := List.toFinset_card_le (edges.map EdgeS.target)
        rw [List.length_map] at h1 h2
        omega
      have hres := bfsLoop_correct edges s t hst (4 * edges.length + 2) [[s]] {s}
        (inv_init hst) (by simp only [List.length_singleton]; omega)
      constructor
      · intro p hp
        unfold findShortestPath at hp
        rw [if_neg hst] at hp
        exact hres.1 p hp
      · intro hnone
        unfold findShortestPath at hnone
        rw [if_neg hst] at hnone
        exact hres.2 hnone
  refine ⟨fun edges s t p hp => (hmain edges s t).1 p hp,
          fun edges s t hn => (hmain edges s t).2 hn,
          fun edges a => by unfold findShortestPath; rw [if_pos rfl],
          by decide, by decide⟩

theorem findShortestPath_min_hop_witness :
    findShortestPath pathGraphEdges "A" "E" = some ["A", "B", "C", "D", "E"] ∧
    (WalkFrom pathGraphEdges "A" "E" ["A", "B", "C", "D", "E"] ∧
     ∀ q, WalkFrom pathGraphEdges "A" "E" q →
       (["A", "B", "C", "D", "E"] : List String).length ≤ q.length) :=
  ⟨by decide, findShortestPath_min_hop.1 pathGraphEdges "A" "E" _ (by decide)⟩

theorem highlightPath_highlights_only_path_witness :
    (findShortestPath c7Edges "A" "B" = some ["A", "B"] ∧
     2 ≤ (["A", "B"] : List String).length ∧
     (c7Disp0.nodeCircles.map Prod.fst).Nodup) ∧
    ((highlightPath c7Nodes c7Edges c7Disp0 "A" "B").1 = true ∧
     (highlightPath c7Nodes c7Edges c7Disp0 "A" "B").2.nodeCircles =
       c7Disp0.nodeCircles.map fun q =>
         if q.1 ∈ (["A", "B"] : List String) then
           (q.1, applyToFirstCircle setCircleHighlight q.2)
         else (q.1, applyToFirstCircle (clearCircle c7Nodes q.1) q.2)) :=
  ⟨⟨by decide, by decide, by decide⟩,
   (highlightPath_highlights_only_path c7Nodes c7Edges c7Disp0 "A" "B" ["A", "B"]
      (by decide) (by decide) (by decide)).1,
   (highlightPath_highlights_only_path c7Nodes c7Edges c7Disp0 "A" "B" ["A", "B"]
      (by decide) (by decide) (by decide)).2.2.2⟩

end NetworkGraph
